import Mathlib

/-!
# lookquick: two-tier image store (memcache in front of the datastore)

A shallow embedding of `src/main.go`.  The two App Engine services are
modelled as association tables inside an explicit `Server` state, every
service call is appended to a call log, and the behaviour of the outside world
(service failures, the clock, the random source, the image codecs) is passed in
as explicit parameters.

Modelling conventions:
* `time.Time` is an integer number of nanoseconds; `t.Before(u)` is `t < u`.
* A service call that reports an error has no effect on the tier it targets.
* Datastore queries are read from the current table contents.
* A handler reads the clock at most once on every path (`postRequest` once,
  `getFromMemCache` only after a successful cache read, `getFromDatastore` only
  after a cache miss), so one `now` per request is exact.
-/

namespace LookQuick

/-! ## Data model -/

abbrev Bytes := List Nat

abbrev Time := Int

/-- The entity `RawImage` of `main.go`. -/
structure RawImage where
  Image : Bytes
  ID : String
  Expiration : Time
deriving DecidableEq, Repr

/-- The alphabet `keyRunes` of `main.go`. -/
def keyRunes : List Char :=
  "abcdefghijklmnopqrstuvwxyzABCDEFGHIJKLMNOPQRSTUVWXYZ1234567890".toList

/-- The duration `time.Duration(5) * time.Minute`, in nanoseconds. -/
def fiveMinutes : Int := 5 * (60 * 1000000000)

/-! ## The two tiers -/

/-- A tier: entries filed under a string key (memcache item key, or the name
of a datastore key of kind "RawImage"). -/
abbrev Table := List (String × RawImage)

/-- Direct lookup by storage key. -/
def tableGet (k : String) : Table → Option RawImage
  | [] => none
  | e :: t => if e.1 = k then some e.2 else tableGet k t

/-- Insert or overwrite the entry filed under `k`. -/
def tablePut (k : String) (v : RawImage) : Table → Table
  | [] => [(k, v)]
  | e :: t => if e.1 = k then (k, v) :: t else e :: tablePut k v t

/-- Remove the entry filed under `k`. -/
def tableDelete (k : String) (t : Table) : Table :=
  t.filter (fun e => decide (e.1 ≠ k))

/-- The query `NewQuery("RawImage").Filter("ID = ", id)`: all entries whose
`ID` field equals `id`, in table order. -/
def tableQuery (id : String) (t : Table) : Table :=
  t.filter (fun e => decide (e.2.ID = id))

/-- A call made to one of the tiers. -/
inductive Call where
  | memGet (key : String)
  | memSet (key : String)
  | memDelete (key : String)
  | dsPut (key : String)
  | dsQuery (id : String)
  | dsDelete (key : String)
deriving DecidableEq, Repr

/-- State of the server: both tiers and the log of tier calls made so far. -/
structure Server where
  memcache : Table
  datastore : Table
  calls : List Call
deriving DecidableEq, Repr

/-- Outcome of the outside world during one request: which calls fail. -/
structure Faults where
  memGetErr : Bool
  memSetErr : Bool
  memDeleteErr : Bool
  dsPutErr : Bool
  dsQueryErr : Bool
  dsDeleteErr : Bool
  templateErr : Bool
deriving DecidableEq, Repr

/-- A request during which every call succeeds. -/
def noFaults : Faults := ⟨false, false, false, false, false, false, false⟩

/-- Errors of `memcache.JSON.Get`. -/
inductive CacheErr where
  | ErrCacheMiss
  | other
deriving DecidableEq, Repr

/-- Append a tier call to the log. -/
def logCall (s : Server) (c : Call) : Server :=
  { s with calls := s.calls ++ [c] }

/-- The call `memcache.JSON.Get(c, key, &image)`. -/
def memcacheGet (f : Faults) (s : Server) (key : String) : Except CacheErr RawImage × Server :=
  if f.memGetErr then (Except.error CacheErr.other, logCall s (Call.memGet key))
  else
    match tableGet key s.memcache with
    | none => (Except.error CacheErr.ErrCacheMiss, logCall s (Call.memGet key))
    | some r => (Except.ok r, logCall s (Call.memGet key))

/-- The call `memcache.JSON.Set(c, item)`; the caller discards its error. -/
def memcacheSet (f : Faults) (s : Server) (key : String) (r : RawImage) : Server :=
  if f.memSetErr then logCall s (Call.memSet key)
  else logCall { s with memcache := tablePut key r s.memcache } (Call.memSet key)

/-- The call `memcache.Delete(c, key)`; the caller discards its error. -/
def memcacheDelete (f : Faults) (s : Server) (key : String) : Server :=
  if f.memDeleteErr then logCall s (Call.memDelete key)
  else logCall { s with memcache := tableDelete key s.memcache } (Call.memDelete key)

/-- The call `datastore.Put(c, dsKey, &image)`; the flag is `err != nil`. -/
def datastorePut (f : Faults) (s : Server) (key : String) (r : RawImage) : Bool × Server :=
  if f.dsPutErr then (true, logCall s (Call.dsPut key))
  else (false, logCall { s with datastore := tablePut key r s.datastore } (Call.dsPut key))

/-- The call `NewQuery("RawImage").Filter("ID = ", id).GetAll(c, &images)`:
`none` when it reports an error, else the matching keys and entities. -/
def datastoreGetAll (f : Faults) (s : Server) (id : String) :
    Option (List String × List RawImage) × Server :=
  if f.dsQueryErr then (none, logCall s (Call.dsQuery id))
  else
    (some ((tableQuery id s.datastore).map Prod.fst, (tableQuery id s.datastore).map Prod.snd),
      logCall s (Call.dsQuery id))

/-- The call `datastore.Delete(c, dsKey)`; the caller discards its error. -/
def datastoreDelete (f : Faults) (s : Server) (key : String) : Server :=
  if f.dsDeleteErr then logCall s (Call.dsDelete key)
  else logCall { s with datastore := tableDelete key s.datastore } (Call.dsDelete key)

/-! ## Key generation -/

/-- The loop of `randomKey`: `n` further runes, the next draw being call number
`i` of the random source.  `intn i b` is the value of the `i`-th call
`rand.Intn(b)`.  An out-of-range index into `keyRunes` is a run-time panic,
here `none`. -/
def randomRunes (intn : Nat → Nat → Nat) (runCount : Nat) : Nat → Nat → Option (List Char)
  | _, 0 => some []
  | i, n + 1 =>
    match keyRunes[intn i runCount]? with
    | none => none
    | some c =>
      match randomRunes intn runCount (i + 1) n with
      | none => none
      | some rest => some (c :: rest)

/-- The function `randomKey(size int64) string`.  `make([]rune, size)` panics
when `size` is negative and when it exceeds `maxLen`, the largest slice length
the runtime accepts for runes (a platform constant, far below the `int64`
range); either panic is `none`. -/
def randomKey (maxLen : Nat) (intn : Nat → Nat → Nat) (size : Int) : Option String :=
  if size < 0 ∨ (maxLen : Int) < size then none
  else
    match randomRunes intn keyRunes.length 0 size.toNat with
    | none => none
    | some runes => some (String.mk runes)

/-- The bound `maxLen` of a 64-bit Go runtime: an allocation is at most 2^48
bytes and a rune takes 4, so `make([]rune, n)` is refused above 2^46.  The
handlers only need it to be at least 50. -/
def maxSliceLen : Nat := 70368744177664

/-- The contract of `rand.Intn(n)`: for positive `n` the result is below `n`. -/
def IntnContract (intn : Nat → Nat → Nat) : Prop :=
  ∀ i n, 0 < n → intn i n < n

/-! ## The write path -/

/-- Whether `pre` starts the list `l`. -/
def startsWith : List Char → List Char → Bool
  | [], _ => true
  | _ :: _, [] => false
  | a :: pre, b :: l => a == b && startsWith pre l

/-- Whether `sub` occurs in `l`. -/
def occursIn (sub : List Char) : List Char → Bool
  | [] => startsWith sub []
  | c :: l => startsWith sub (c :: l) || occursIn sub l

/-- The function `strings.Contains`. -/
def stringsContains (s sub : String) : Bool :=
  occursIn sub.toList s.toList

/-- The image codecs used by `postRequest`, for decoded images of type `Img`.
`jpegEncode` gives the bytes left in the buffer and whether an error was
returned. -/
structure Codec (Img : Type) where
  pngDecode : Bytes → Option Img
  jpegDecode : Bytes → Option Img
  imageDecode : Bytes → Option Img
  jpegEncode : Img → Bytes × Bool

/-- The uploaded form file: its name and content. -/
structure Upload where
  Filename : String
  content : Bytes
deriving DecidableEq, Repr

/-- What `postRequest` sends back: `renderError` (HTTP 500), a run-time panic,
or the key as a text/plain body. -/
inductive PostResponse where
  | renderError
  | panicked
  | key (k : String)
deriving DecidableEq, Repr

/-- The decoder selection of `postRequest` (lines 51 to 57), by file name. -/
def decodeUpload {Img : Type} (codec : Codec Img) (up : Upload) : Option Img :=
  if stringsContains up.Filename ".png" then codec.pngDecode up.content
  else if stringsContains up.Filename ".jpg" || stringsContains up.Filename ".jpeg" then
    codec.jpegDecode up.content
  else codec.imageDecode up.content

/-- The handler `postRequest`.  `form` is the result of `r.FormFile("file")`
(`none` when it fails). -/
def postRequest {Img : Type} (codec : Codec Img) (intn : Nat → Nat → Nat) (f : Faults)
    (now : Time) (s : Server) (form : Option Upload) : PostResponse × Server :=
  match form with
  | none => (PostResponse.renderError, s)
  | some up =>
    match decodeUpload codec up with
    | none => (PostResponse.renderError, s)
    | some rawImage =>
      -- `err = jpeg.Encode(buf, rawImage, nil)`: the error is overwritten by
      -- the result of `datastore.Put` before anything reads it
      let buf := (codec.jpegEncode rawImage).1
      match randomKey maxSliceLen intn 50 with
      | none => (PostResponse.panicked, s)
      | some key =>
        let image : RawImage := { Image := buf, ID := key, Expiration := now + fiveMinutes }
        match datastorePut f s key image with
        | (true, s1) => (PostResponse.renderError, s1)
        | (false, s1) => (PostResponse.key key, memcacheSet f s1 key image)

/-! ## The read path -/

/-- The function `removeFromMemCache`. -/
def removeFromMemCache (f : Faults) (s : Server) (key : String) : Server :=
  memcacheDelete f s key

/-- The function `removeFromDatastore`; `dsKey = none` is the nil key. -/
def removeFromDatastore (f : Faults) (s : Server) (key : String) (dsKey : Option String) :
    Server :=
  match dsKey with
  | none =>
    match datastoreGetAll f s key with
    | (none, s1) => s1
    | (some ([], _), s1) => s1
    | (some (k0 :: _, _), s1) => datastoreDelete f s1 k0
  | some k => datastoreDelete f s k

/-- The function `getFromMemCache`: the image (or nil) and the `expired` flag. -/
def getFromMemCache (f : Faults) (now : Time) (s : Server) (key : String) :
    (Option RawImage × Bool) × Server :=
  match memcacheGet f s key with
  | (Except.error CacheErr.ErrCacheMiss, s1) => ((none, false), s1)
  | (Except.error CacheErr.other, s1) => ((none, false), s1)
  | (Except.ok image, s1) =>
    if image.Expiration < now then
      ((none, true), removeFromDatastore f (removeFromMemCache f s1 key) key none)
    else ((some image, false), s1)

/-- The function `getFromDatastore`: the image (or nil) and the `expired` flag.
`GetAll` returns as many keys as entities, so the third case never occurs. -/
def getFromDatastore (f : Faults) (now : Time) (s : Server) (key : String) :
    (Option RawImage × Bool) × Server :=
  match datastoreGetAll f s key with
  | (none, s1) => ((none, false), s1)
  | (some (_, []), s1) => ((none, false), s1)
  | (some ([], _ :: _), s1) => ((none, false), s1)
  | (some (k0 :: _, image0 :: _), s1) =>
    if image0.Expiration < now then
      ((none, true), removeFromDatastore f s1 key (some k0))
    else ((some image0, false), s1)

/-- The lookup of `renderRequest` (lines 110 to 123): the cache first, the
datastore on a miss that is not an expiration.  `none` is the not-found
outcome, `some image` the record handed to the image template. -/
def retrieve (f : Faults) (now : Time) (s : Server) (key : String) :
    Option RawImage × Server :=
  match getFromMemCache f now s key with
  | ((some image, _), s1) => (some image, s1)
  | ((none, expired), s1) =>
    let r : (Option RawImage × Bool) × Server :=
      if !expired then getFromDatastore f now s1 key else ((none, expired), s1)
    match r with
    | ((none, _), s2) => (none, s2)
    | ((some image, expired2), s2) => if expired2 then (none, s2) else (some image, s2)

/-- The template executed by `renderRequest` and its data. -/
inductive Page where
  | index
  | notfound (key : String)
  | image (r : RawImage)
deriving DecidableEq, Repr

/-- What `renderRequest` sends back: the page executed, and whether
`renderError` was called because the template failed. -/
structure Response where
  page : Page
  renderError : Bool
deriving DecidableEq, Repr

/-- The handler `renderRequest`; `values` is `r.URL.Query()["key"]` (`none`
when the parameter is absent). -/
def renderRequest (f : Faults) (now : Time) (s : Server) (values : Option (List String)) :
    Response × Server :=
  match values with
  | some [k] =>
    if k = "" then (⟨Page.index, f.templateErr⟩, s)
    else
      match retrieve f now s k with
      | (none, s1) => (⟨Page.notfound k, f.templateErr⟩, s1)
      | (some image, s1) => (⟨Page.image image, f.templateErr⟩, s1)
  | _ => (⟨Page.index, f.templateErr⟩, s)

/-! ## Reachable states -/

/-- Both tiers empty, nothing called yet. -/
def emptyServer : Server := ⟨[], [], []⟩

/-- States the server can be in: starting from empty tiers, any sequence of
uploads and page requests under any behaviour of the outside world, and the
cache dropping entries on its own. -/
inductive Reachable : Server → Prop where
  | init : Reachable emptyServer
  | post {Img : Type} (codec : Codec Img) (intn : Nat → Nat → Nat) (f : Faults) (now : Time)
      (form : Option Upload) (s : Server) :
      Reachable s → Reachable (postRequest codec intn f now s form).2
  | render (f : Faults) (now : Time) (values : Option (List String)) (s : Server) :
      Reachable s → Reachable (renderRequest f now s values).2
  | evict (keep : String → Bool) (s : Server) :
      Reachable s → Reachable { s with memcache := s.memcache.filter (fun e => keep e.1) }

/-- Every datastore entity is filed under the key named by its `ID` field. -/
def KeyedByID (t : Table) : Prop :=
  ∀ e ∈ t, e.1 = e.2.ID

/-- No two entries of the table are filed under the same key. -/
def KeysNodup (t : Table) : Prop :=
  (t.map Prod.fst).Nodup

/-- The tiers of `s1` are those of `s` with some entries removed. -/
def Shrinks (s s1 : Server) : Prop :=
  (∃ p : String × RawImage → Bool, s1.memcache = s.memcache.filter p) ∧
    ∃ q : String × RawImage → Bool, s1.datastore = s.datastore.filter q

/-- The filing invariant: every entity of either tier sits under the key named
by its `ID`, and no datastore key is used twice. -/
def WellFiled (s : Server) : Prop :=
  KeyedByID s.datastore ∧ KeysNodup s.datastore ∧ KeyedByID s.memcache

/-- The record `postRequest` files under `key` for a decoded image. -/
def postedRecord {Img : Type} (codec : Codec Img) (rawImage : Img) (key : String) (now : Time) :
    RawImage :=
  { Image := (codec.jpegEncode rawImage).1, ID := key, Expiration := now + fiveMinutes }

/-- The tier calls made while going from `s` to `s1`. -/
def callsSince (s s1 : Server) : List Call :=
  s1.calls.drop s.calls.length

/-- Further lookups of the same key, one after the other: their outcomes and
the final state. -/
def retrieveAgain (key : String) : List (Faults × Time) → Server → List (Option RawImage) × Server
  | [], s => ([], s)
  | (f, now) :: rest, s =>
    ((retrieve f now s key).1 :: (retrieveAgain key rest (retrieve f now s key).2).1,
      (retrieveAgain key rest (retrieve f now s key).2).2)

/-- Whatever either tier files under `k` has expired before `t0`. -/
def Dead (k : String) (t0 : Time) (s : Server) : Prop :=
  (∀ r, tableGet k s.memcache = some r → r.Expiration < t0) ∧
    (∀ r, tableGet k s.datastore = some r → r.Expiration < t0) ∧ KeyedByID s.datastore

/-- Neither tier files anything under `k`. -/
def Gone (k : String) (s : Server) : Prop :=
  tableGet k s.memcache = none ∧ tableGet k s.datastore = none ∧ KeyedByID s.datastore

/-! ## Test fixtures -/

/-- A codec over byte lists: decoding is the identity, encoding fails exactly
on the empty image (and leaves the buffer as written so far). -/
def testCodec : Codec Bytes :=
  { pngDecode := fun b => some b
    jpegDecode := fun b => some b
    imageDecode := fun b => some b
    jpegEncode := fun b => (b, b.isEmpty) }

/-- A random source obeying the contract of `rand.Intn`. -/
def testIntn : Nat → Nat → Nat := fun i n => (7 * i + 3) % n

def testUpload : Upload := ⟨"cat.png", [1, 2, 3]⟩

def testKey : String := "dkryFMT18elszGNU29fmtAHOV30gnuBIPW4ahovCJQX5bipwDK"

def testRecord : RawImage := ⟨[1, 2, 3], testKey, fiveMinutes⟩

/-- The server after one successful upload at time 0. -/
def testServer : Server := (postRequest testCodec testIntn noFaults 0 emptyServer (some testUpload)).2

/-- The server after a second upload whose generated key collides with the
first one. -/
def testServer2 : Server :=
  (postRequest testCodec testIntn noFaults 9 testServer (some ⟨"dog.jpg", [4, 5]⟩)).2

/-! # Lemmas -/

/-! ## Tables -/

theorem tableGet_tablePut_self (k : String) (v : RawImage) (t : Table) :
    tableGet k (tablePut k v t) = some v := by
  induction t with
  | nil => simp [tablePut, tableGet]
  | cons e t ih =>
    by_cases h : e.1 = k
    · simp [tablePut, tableGet, h]
    · simp [tablePut, tableGet, h, ih]

theorem tableGet_tableDelete_self (k : String) (t : Table) :
    tableGet k (tableDelete k t) = none := by
  induction t with
  | nil => simp [tableDelete, tableGet]
  | cons e t ih =>
    by_cases h : e.1 = k
    · simpa [tableDelete, h] using ih
    · simpa [tableDelete, tableGet, h] using ih

theorem tableGet_eq_none_iff (k : String) (t : Table) :
    tableGet k t = none ↔ ∀ e ∈ t, e.1 ≠ k := by
  induction t with
  | nil => simp [tableGet]
  | cons e t ih =>
    by_cases h : e.1 = k
    · simp [tableGet, h]
    · simp [tableGet, h, ih]

theorem tableGet_mem {k : String} {r : RawImage} {t : Table} (h : tableGet k t = some r) :
    (k, r) ∈ t := by
  induction t with
  | nil => simp [tableGet] at h
  | cons e t ih =>
    by_cases hk : e.1 = k
    · simp [tableGet, hk] at h
      subst hk
      subst h
      simp
    · simp [tableGet, hk] at h
      exact List.mem_cons_of_mem _ (ih h)

theorem mem_tablePut {k : String} {v : RawImage} {t : Table} {e : String × RawImage}
    (h : e ∈ tablePut k v t) : e = (k, v) ∨ e ∈ t := by
  induction t with
  | nil => simp [tablePut] at h; exact Or.inl h
  | cons a t ih =>
    by_cases hk : a.1 = k
    · simp [tablePut, hk] at h
      rcases h with h | h
      · exact Or.inl h
      · exact Or.inr (List.mem_cons_of_mem _ h)
    · simp [tablePut, hk] at h
      rcases h with h | h
      · right; subst h; simp
      · rcases ih h with h1 | h1
        · exact Or.inl h1
        · exact Or.inr (List.mem_cons_of_mem _ h1)

theorem keys_tablePut (k : String) (v : RawImage) (t : Table) :
    (tablePut k v t).map Prod.fst =
      if k ∈ t.map Prod.fst then t.map Prod.fst else t.map Prod.fst ++ [k] := by
  induction t with
  | nil => simp [tablePut]
  | cons a t ih =>
    by_cases hk : a.1 = k
    · simp [tablePut, hk]
    · have hk2 : ¬ k = a.1 := fun h => hk h.symm
      by_cases hm : k ∈ t.map Prod.fst
      · simp only [tablePut, hk, if_false, List.map_cons, ih, if_pos hm]
        simp [hm]
      · simp only [tablePut, hk, if_false, List.map_cons, ih, if_neg hm]
        have : k ∉ a.1 :: List.map Prod.fst t := by
          simp only [List.mem_cons, not_or]
          exact ⟨hk2, hm⟩
        rw [if_neg this]
        simp

theorem keysNodup_tablePut {k : String} {v : RawImage} {t : Table} (h : KeysNodup t) :
    KeysNodup (tablePut k v t) := by
  unfold KeysNodup at *
  rw [keys_tablePut]
  by_cases hm : k ∈ t.map Prod.fst
  · rw [if_pos hm]; exact h
  · rw [if_neg hm]
    rw [List.nodup_append]
    refine ⟨h, List.nodup_singleton k, ?_⟩
    intro a ha hb
    simp at hb
    subst hb
    exact hm ha

theorem keysNodup_filter {t : Table} (p : String × RawImage → Bool) (h : KeysNodup t) :
    KeysNodup (t.filter p) := by
  unfold KeysNodup at *
  exact List.Nodup.sublist (List.Sublist.map _ (List.filter_sublist t)) h

theorem keyedByID_tablePut {k : String} {v : RawImage} {t : Table} (h : KeyedByID t)
    (hv : v.ID = k) : KeyedByID (tablePut k v t) := by
  intro e he
  rcases mem_tablePut he with h1 | h1
  · subst h1; exact hv.symm
  · exact h e h1

theorem keyedByID_filter {t : Table} (p : String × RawImage → Bool) (h : KeyedByID t) :
    KeyedByID (t.filter p) := by
  intro e he
  exact h e (List.mem_of_mem_filter he)

theorem tableQuery_eq_nil {id : String} {t : Table} (hk : KeyedByID t)
    (h : tableGet id t = none) : tableQuery id t = [] := by
  rw [tableGet_eq_none_iff] at h
  unfold tableQuery
  rw [List.filter_eq_nil_iff]
  intro e he
  have h1 := h e he
  have h2 := hk e he
  simp only [decide_eq_true_eq]
  intro h3
  exact h1 (h2.trans h3)

theorem tableQuery_eq_cons {id : String} {r : RawImage} {t : Table} (hk : KeyedByID t)
    (h : tableGet id t = some r) : ∃ rest, tableQuery id t = (id, r) :: rest := by
  induction t with
  | nil => simp [tableGet] at h
  | cons e t ih =>
    have hk1 : KeyedByID t := fun a ha => hk a (List.mem_cons_of_mem _ ha)
    have he : e.1 = e.2.ID := hk e (List.mem_cons_self _ _)
    by_cases hid : e.1 = id
    · simp only [tableGet, hid, if_true, Option.some.injEq] at h
      refine ⟨tableQuery id t, ?_⟩
      have h2 : e.2.ID = id := he.symm.trans hid
      have h3 : e = (id, r) := Prod.ext hid h
      unfold tableQuery
      rw [List.filter_cons_of_pos (by simpa using h2), h3]
    · simp only [tableGet, hid, if_false] at h
      obtain ⟨rest, hr⟩ := ih hk1 h
      refine ⟨rest, ?_⟩
      have h2 : ¬ e.2.ID = id := fun h3 => hid (he.trans h3)
      simpa [tableQuery, h2] using hr

theorem tableQuery_length_le_one {id : String} {t : Table} (hk : KeyedByID t)
    (hn : KeysNodup t) : (tableQuery id t).length ≤ 1 := by
  induction t with
  | nil => simp [tableQuery]
  | cons e t ih =>
    have hk1 : KeyedByID t := fun a ha => hk a (List.mem_cons_of_mem _ ha)
    have he : e.1 = e.2.ID := hk e (List.mem_cons_self _ _)
    unfold KeysNodup at hn
    rw [List.map_cons, List.nodup_cons] at hn
    by_cases hid : e.2.ID = id
    · have hnone : tableGet id t = none := by
        rw [tableGet_eq_none_iff]
        intro a ha h1
        apply hn.1
        rw [he, hid, ← h1]
        exact List.mem_map_of_mem _ ha
      have := tableQuery_eq_nil hk1 hnone
      unfold tableQuery at this
      simp [tableQuery, hid, this]
    · have := ih hk1 hn.2
      simpa [tableQuery, hid] using this

theorem tableQuery_tableDelete (id : String) {t : Table} (hk : KeyedByID t) :
    tableQuery id (tableDelete id t) = [] := by
  unfold tableQuery tableDelete
  rw [List.filter_filter, List.filter_eq_nil_iff]
  intro e he
  have := hk e he
  simp only [Bool.and_eq_true, decide_eq_true_eq, not_and]
  intro h1 h2
  exact h2 (this.trans h1)

/-! ## The service calls and the read path, case by case -/

@[simp] theorem logCall_memcache (s : Server) (c : Call) : (logCall s c).memcache = s.memcache :=
  rfl

@[simp] theorem logCall_datastore (s : Server) (c : Call) :
    (logCall s c).datastore = s.datastore :=
  rfl

@[simp] theorem logCall_calls (s : Server) (c : Call) : (logCall s c).calls = s.calls ++ [c] :=
  rfl

theorem getFromDatastore_err {f : Faults} (now : Time) (s : Server) (key : String)
    (hq : f.dsQueryErr = true) :
    getFromDatastore f now s key = ((none, false), logCall s (Call.dsQuery key)) := by
  simp [getFromDatastore, datastoreGetAll, hq]

theorem getFromDatastore_absent {f : Faults} (now : Time) {s : Server} {key : String}
    (hq : f.dsQueryErr = false) (hk : KeyedByID s.datastore)
    (h : tableGet key s.datastore = none) :
    getFromDatastore f now s key = ((none, false), logCall s (Call.dsQuery key)) := by
  simp [getFromDatastore, datastoreGetAll, hq, tableQuery_eq_nil hk h]

theorem getFromDatastore_live {f : Faults} {now : Time} {s : Server} {key : String}
    {r : RawImage} (hq : f.dsQueryErr = false) (hk : KeyedByID s.datastore)
    (h : tableGet key s.datastore = some r) (hl : ¬ r.Expiration < now) :
    getFromDatastore f now s key = ((some r, false), logCall s (Call.dsQuery key)) := by
  obtain ⟨rest, hr⟩ := tableQuery_eq_cons hk h
  simp [getFromDatastore, datastoreGetAll, hq, hr, hl]

theorem getFromDatastore_expired {f : Faults} {now : Time} {s : Server} {key : String}
    {r : RawImage} (hq : f.dsQueryErr = false) (hk : KeyedByID s.datastore)
    (h : tableGet key s.datastore = some r) (hl : r.Expiration < now) :
    getFromDatastore f now s key =
      ((none, true), datastoreDelete f (logCall s (Call.dsQuery key)) key) := by
  obtain ⟨rest, hr⟩ := tableQuery_eq_cons hk h
  simp [getFromDatastore, datastoreGetAll, hq, hr, hl, removeFromDatastore]

theorem removeFromDatastore_err {f : Faults} (s : Server) (key : String)
    (hq : f.dsQueryErr = true) :
    removeFromDatastore f s key none = logCall s (Call.dsQuery key) := by
  simp [removeFromDatastore, datastoreGetAll, hq]

theorem removeFromDatastore_absent {f : Faults} {s : Server} {key : String}
    (hq : f.dsQueryErr = false) (hk : KeyedByID s.datastore)
    (h : tableGet key s.datastore = none) :
    removeFromDatastore f s key none = logCall s (Call.dsQuery key) := by
  simp [removeFromDatastore, datastoreGetAll, hq, tableQuery_eq_nil hk h]

theorem removeFromDatastore_present {f : Faults} {s : Server} {key : String} {r : RawImage}
    (hq : f.dsQueryErr = false) (hk : KeyedByID s.datastore)
    (h : tableGet key s.datastore = some r) :
    removeFromDatastore f s key none = datastoreDelete f (logCall s (Call.dsQuery key)) key := by
  obtain ⟨rest, hr⟩ := tableQuery_eq_cons hk h
  simp [removeFromDatastore, datastoreGetAll, hq, hr]

theorem getFromMemCache_miss {f : Faults} (now : Time) {s : Server} {key : String}
    (h : f.memGetErr = true ∨ tableGet key s.memcache = none) :
    getFromMemCache f now s key = ((none, false), logCall s (Call.memGet key)) := by
  rcases h with h | h
  · simp [getFromMemCache, memcacheGet, h]
  · cases hf : f.memGetErr <;> simp [getFromMemCache, memcacheGet, h, hf]

theorem getFromMemCache_live {f : Faults} {now : Time} {s : Server} {key : String}
    {r : RawImage} (hg : f.memGetErr = false) (h : tableGet key s.memcache = some r)
    (hl : ¬ r.Expiration < now) :
    getFromMemCache f now s key = ((some r, false), logCall s (Call.memGet key)) := by
  simp [getFromMemCache, memcacheGet, h, hg, hl]

theorem getFromMemCache_expired {f : Faults} {now : Time} {s : Server} {key : String}
    {r : RawImage} (hg : f.memGetErr = false) (h : tableGet key s.memcache = some r)
    (hl : r.Expiration < now) :
    getFromMemCache f now s key =
      ((none, true),
        removeFromDatastore f (removeFromMemCache f (logCall s (Call.memGet key)) key) key
          none) := by
  simp [getFromMemCache, memcacheGet, h, hg, hl]

/-- The second component of `getFromDatastore` is set only together with nil. -/
theorem getFromDatastore_flag (f : Faults) (now : Time) (s : Server) (key : String) :
    (getFromDatastore f now s key).1.1 = none ∨ (getFromDatastore f now s key).1.2 = false := by
  unfold getFromDatastore
  split
  · simp
  · simp
  · simp
  · split <;> simp

theorem retrieve_miss {f : Faults} (now : Time) {s : Server} {key : String}
    (h : f.memGetErr = true ∨ tableGet key s.memcache = none) :
    retrieve f now s key =
      ((getFromDatastore f now (logCall s (Call.memGet key)) key).1.1,
        (getFromDatastore f now (logCall s (Call.memGet key)) key).2) := by
  have hflag := getFromDatastore_flag f now (logCall s (Call.memGet key)) key
  unfold retrieve
  rw [getFromMemCache_miss now h]
  simp only [Bool.not_false, if_true]
  generalize getFromDatastore f now (logCall s (Call.memGet key)) key = r at hflag
  obtain ⟨⟨o, b⟩, s2⟩ := r
  cases o with
  | none => rfl
  | some img =>
    simp at hflag
    subst hflag
    rfl

theorem retrieve_live {f : Faults} {now : Time} {s : Server} {key : String}
    {r : RawImage} (hg : f.memGetErr = false) (h : tableGet key s.memcache = some r)
    (hl : ¬ r.Expiration < now) :
    retrieve f now s key = (some r, logCall s (Call.memGet key)) := by
  unfold retrieve
  rw [getFromMemCache_live hg h hl]

theorem retrieve_expired {f : Faults} {now : Time} {s : Server} {key : String}
    {r : RawImage} (hg : f.memGetErr = false) (h : tableGet key s.memcache = some r)
    (hl : r.Expiration < now) :
    retrieve f now s key = (none, (getFromMemCache f now s key).2) := by
  unfold retrieve
  rw [getFromMemCache_expired hg h hl]
  rfl

/-! ## What a page request can do to the tiers -/

theorem Shrinks.refl (s : Server) : Shrinks s s :=
  ⟨⟨fun _ => true, by simp⟩, ⟨fun _ => true, by simp⟩⟩

theorem Shrinks.trans {a b c : Server} (h1 : Shrinks a b) (h2 : Shrinks b c) : Shrinks a c := by
  obtain ⟨⟨p1, hp1⟩, ⟨q1, hq1⟩⟩ := h1
  obtain ⟨⟨p2, hp2⟩, ⟨q2, hq2⟩⟩ := h2
  refine ⟨⟨fun e => p2 e && p1 e, ?_⟩, ⟨fun e => q2 e && q1 e, ?_⟩⟩
  · rw [hp2, hp1, List.filter_filter]
  · rw [hq2, hq1, List.filter_filter]

theorem shrinks_logCall (s : Server) (c : Call) : Shrinks s (logCall s c) :=
  Shrinks.refl s

theorem shrinks_memcacheDelete (f : Faults) (s : Server) (key : String) :
    Shrinks s (memcacheDelete f s key) := by
  unfold memcacheDelete
  split
  · exact shrinks_logCall s _
  · exact ⟨⟨_, rfl⟩, ⟨fun _ => true, by simp⟩⟩

theorem shrinks_datastoreDelete (f : Faults) (s : Server) (key : String) :
    Shrinks s (datastoreDelete f s key) := by
  unfold datastoreDelete
  split
  · exact shrinks_logCall s _
  · exact ⟨⟨fun _ => true, by simp⟩, ⟨_, rfl⟩⟩

theorem shrinks_removeFromDatastore (f : Faults) (s : Server) (key : String)
    (dsKey : Option String) : Shrinks s (removeFromDatastore f s key dsKey) := by
  cases dsKey with
  | some k => exact shrinks_datastoreDelete f s k
  | none =>
    cases hq : f.dsQueryErr with
    | true => simp [removeFromDatastore, datastoreGetAll, hq]; exact shrinks_logCall s _
    | false =>
      cases hl : (tableQuery key s.datastore).map Prod.fst with
      | nil =>
        simp [removeFromDatastore, datastoreGetAll, hq, hl]
        exact shrinks_logCall s _
      | cons k0 rest =>
        simp [removeFromDatastore, datastoreGetAll, hq, hl]
        exact (shrinks_logCall s _).trans (shrinks_datastoreDelete f _ k0)

theorem shrinks_getFromMemCache (f : Faults) (now : Time) (s : Server) (key : String) :
    Shrinks s (getFromMemCache f now s key).2 := by
  cases hg : f.memGetErr with
  | true => rw [getFromMemCache_miss now (Or.inl hg)]; exact shrinks_logCall s _
  | false =>
    cases ht : tableGet key s.memcache with
    | none => rw [getFromMemCache_miss now (Or.inr ht)]; exact shrinks_logCall s _
    | some r =>
      by_cases hl : r.Expiration < now
      · rw [getFromMemCache_expired hg ht hl]
        exact ((shrinks_logCall s _).trans (shrinks_memcacheDelete f _ key)).trans
          (shrinks_removeFromDatastore f _ key none)
      · rw [getFromMemCache_live hg ht hl]; exact shrinks_logCall s _

theorem shrinks_getFromDatastore (f : Faults) (now : Time) (s : Server) (key : String) :
    Shrinks s (getFromDatastore f now s key).2 := by
  have hs : (datastoreGetAll f s key).2 = logCall s (Call.dsQuery key) := by
    unfold datastoreGetAll; split <;> rfl
  unfold getFromDatastore
  split <;> rename_i heq
  · rw [heq] at hs; simp at hs; rw [hs]; exact shrinks_logCall s _
  · rw [heq] at hs; simp at hs; rw [hs]; exact shrinks_logCall s _
  · rw [heq] at hs; simp at hs; rw [hs]; exact shrinks_logCall s _
  · rw [heq] at hs; simp at hs; rw [hs]
    split
    · exact (shrinks_logCall s _).trans (shrinks_removeFromDatastore f _ key _)
    · exact shrinks_logCall s _

theorem shrinks_retrieve (f : Faults) (now : Time) (s : Server) (key : String) :
    Shrinks s (retrieve f now s key).2 := by
  have h1 := shrinks_getFromMemCache f now s key
  unfold retrieve
  generalize getFromMemCache f now s key = r at h1
  obtain ⟨⟨o, b⟩, s1⟩ := r
  cases o with
  | some img => exact h1
  | none =>
    cases b with
    | true => exact h1
    | false =>
      have h2 := shrinks_getFromDatastore f now s1 key
      simp only [Bool.not_false, if_true]
      generalize getFromDatastore f now s1 key = r2 at h2
      obtain ⟨⟨o2, b2⟩, s2⟩ := r2
      cases o2 with
      | none => exact h1.trans h2
      | some img => cases b2 <;> exact h1.trans h2

theorem shrinks_renderRequest (f : Faults) (now : Time) (s : Server)
    (values : Option (List String)) : Shrinks s (renderRequest f now s values).2 := by
  unfold renderRequest
  split
  · split
    · exact Shrinks.refl s
    · rename_i k _
      have h := shrinks_retrieve f now s k
      generalize retrieve f now s k = r at h
      obtain ⟨o, s1⟩ := r
      cases o <;> exact h
  · exact Shrinks.refl s

/-! ## The filing invariant -/

theorem wellFiled_shrinks {s s1 : Server} (h : WellFiled s) (hs : Shrinks s s1) :
    WellFiled s1 := by
  obtain ⟨⟨p, hp⟩, ⟨q, hq⟩⟩ := hs
  refine ⟨?_, ?_, ?_⟩
  · rw [hq]; exact keyedByID_filter q h.1
  · rw [hq]; exact keysNodup_filter q h.2.1
  · rw [hp]; exact keyedByID_filter p h.2.2

theorem postRequest_put_failed {Img : Type} {codec : Codec Img} {intn : Nat → Nat → Nat}
    {f : Faults} (now : Time) (s : Server) {up : Upload} {rawImage : Img} {key : String}
    (hd : decodeUpload codec up = some rawImage) (hr : randomKey maxSliceLen intn 50 = some key)
    (hp : f.dsPutErr = true) :
    postRequest codec intn f now s (some up) =
      (PostResponse.renderError, logCall s (Call.dsPut key)) := by
  simp [postRequest, hd, hr, datastorePut, hp]

theorem postRequest_put_ok {Img : Type} {codec : Codec Img} {intn : Nat → Nat → Nat}
    {f : Faults} (now : Time) (s : Server) {up : Upload} {rawImage : Img} {key : String}
    (hd : decodeUpload codec up = some rawImage) (hr : randomKey maxSliceLen intn 50 = some key)
    (hp : f.dsPutErr = false) :
    postRequest codec intn f now s (some up) =
      (PostResponse.key key,
        memcacheSet f
          (logCall
            { s with datastore := tablePut key (postedRecord codec rawImage key now) s.datastore }
            (Call.dsPut key))
          key (postedRecord codec rawImage key now)) := by
  simp [postRequest, hd, hr, datastorePut, hp, postedRecord]

theorem wellFiled_postRequest {Img : Type} (codec : Codec Img) (intn : Nat → Nat → Nat)
    (f : Faults) (now : Time) (form : Option Upload) {s : Server} (h : WellFiled s) :
    WellFiled (postRequest codec intn f now s form).2 := by
  cases form with
  | none => exact h
  | some up =>
    cases hd : decodeUpload codec up with
    | none => simpa [postRequest, hd] using h
    | some rawImage =>
      cases hr : randomKey maxSliceLen intn 50 with
      | none => simpa [postRequest, hd, hr] using h
      | some key =>
        cases hp : f.dsPutErr with
        | true => rw [postRequest_put_failed now s hd hr hp]; exact h
        | false =>
          rw [postRequest_put_ok now s hd hr hp]
          cases hm : f.memSetErr with
          | true =>
            simp only [memcacheSet, hm, if_true]
            exact ⟨keyedByID_tablePut h.1 rfl, keysNodup_tablePut h.2.1, h.2.2⟩
          | false =>
            simp only [memcacheSet, hm]
            exact ⟨keyedByID_tablePut h.1 rfl, keysNodup_tablePut h.2.1,
              keyedByID_tablePut h.2.2 rfl⟩

theorem wellFiled_of_reachable {s : Server} (h : Reachable s) : WellFiled s := by
  induction h with
  | init =>
    refine ⟨?_, ?_, ?_⟩
    · intro e he; simp [emptyServer] at he
    · simp [KeysNodup, emptyServer]
    · intro e he; simp [emptyServer] at he
  | post codec intn f now form s _ ih => exact wellFiled_postRequest codec intn f now form ih
  | render f now values s _ ih => exact wellFiled_shrinks ih (shrinks_renderRequest f now s values)
  | evict keep s _ ih =>
    exact ⟨ih.1, ih.2.1, keyedByID_filter _ ih.2.2⟩

/-! ## Key generation -/

theorem keyRunes_length : keyRunes.length = 62 := by decide

theorem randomRunes_shape (intn : Nat → Nat → Nat) (runCount : Nat)
    (hb : ∀ i, intn i runCount < keyRunes.length) (n : Nat) :
    ∀ i, ∃ l, randomRunes intn runCount i n = some l ∧ l.length = n ∧ ∀ c ∈ l, c ∈ keyRunes := by
  induction n with
  | zero => intro i; exact ⟨[], rfl, rfl, by simp⟩
  | succ n ih =>
    intro i
    obtain ⟨rest, hr, hlen, hmem⟩ := ih (i + 1)
    have hi := hb i
    refine ⟨keyRunes[intn i runCount] :: rest, ?_, by simp [hlen], ?_⟩
    · simp [randomRunes, List.getElem?_eq_getElem hi, hr]
    · intro c hc
      rcases List.mem_cons.mp hc with h | h
      · rw [h]; exact List.getElem_mem hi
      · exact hmem c h

theorem randomRunes_length (intn : Nat → Nat → Nat) (runCount : Nat) (n : Nat) :
    ∀ i l, randomRunes intn runCount i n = some l → l.length = n := by
  induction n with
  | zero => intro i l h; simp [randomRunes] at h; simp [← h]
  | succ n ih =>
    intro i l h
    unfold randomRunes at h
    split at h
    · simp at h
    · split at h
      · simp at h
      · rename_i rest hrest
        simp at h
        rw [← h, List.length_cons, ih (i + 1) rest hrest]

theorem fifty_le_maxSliceLen : (50 : Int) ≤ (maxSliceLen : Int) := by
  decide

theorem randomKey_some {maxLen : Nat} {intn : Nat → Nat → Nat} (hc : IntnContract intn)
    {size : Int} (hsize : 0 ≤ size) (hmax : size ≤ (maxLen : Int)) :
    ∃ key, randomKey maxLen intn size = some key ∧ key.length = size.toNat ∧
      ∀ c ∈ key.toList, c ∈ keyRunes := by
  have hb : ∀ i, intn i keyRunes.length < keyRunes.length :=
    fun i => hc i keyRunes.length (by rw [keyRunes_length]; decide)
  obtain ⟨l, hl, hlen, hmem⟩ := randomRunes_shape intn keyRunes.length hb size.toNat 0
  refine ⟨String.mk l, ?_, hlen, hmem⟩
  have hno : ¬ (size < 0 ∨ (maxLen : Int) < size) := by
    intro h
    rcases h with h | h
    · exact absurd hsize (not_le.mpr h)
    · exact absurd hmax (not_le.mpr h)
  simp only [randomKey, if_neg hno, hl]

theorem randomKey_too_long (maxLen : Nat) (intn : Nat → Nat → Nat) {size : Int}
    (h : (maxLen : Int) < size) : randomKey maxLen intn size = none := by
  simp only [randomKey, if_pos (Or.inr h)]

theorem randomKey_ne_empty {intn : Nat → Nat → Nat} {key : String}
    (h : randomKey maxSliceLen intn 50 = some key) : key ≠ "" := by
  unfold randomKey at h
  rw [if_neg (by decide)] at h
  split at h
  · simp at h
  · rename_i runes hr
    have hlen := randomRunes_length intn keyRunes.length _ 0 runes hr
    simp only [Option.some.injEq] at h
    intro he
    rw [he] at h
    have h2 : runes = [] := by
      have := congrArg String.data h
      simpa using this
    rw [h2] at hlen
    simp at hlen

/-- C8, as the code has it (key shape).  For every `size` from 0 up to the
largest length `make([]rune, size)` accepts and every random source obeying the
contract of `rand.Intn`, `randomKey size` returns (does not panic) a string of
exactly `size` characters, each a member of `keyRunes`; above that length, as
below 0, `make` panics and no key is returned.  Every index passed to
`keyRunes` is in bounds; `keyRunes` has exactly 62 pairwise distinct symbols,
26 lowercase letters, 26 uppercase letters and 10 digits; so `randomKey 50`,
the call of the write path, is 50 alphanumeric characters. -/
theorem randomKey_key_shape (maxLen : Nat) (intn : Nat → Nat → Nat) (size : Int)
    (hsize : 0 ≤ size) (hmax : size ≤ (maxLen : Int)) (hc : IntnContract intn) :
    (∃ key, randomKey maxLen intn size = some key ∧ key.length = size.toNat ∧
        ∀ c ∈ key.toList, c ∈ keyRunes) ∧
      (∀ big : Int, (maxLen : Int) < big → randomKey maxLen intn big = none) ∧
      (∀ neg : Int, neg < 0 → randomKey maxLen intn neg = none) ∧
      (∀ i, intn i keyRunes.length < keyRunes.length) ∧
      keyRunes.length = 62 ∧ keyRunes.Nodup ∧
      (keyRunes.filter Char.isLower).length = 26 ∧
      (keyRunes.filter Char.isUpper).length = 26 ∧
      (keyRunes.filter Char.isDigit).length = 10 ∧
      (∃ key, randomKey maxSliceLen intn 50 = some key ∧ key.length = 50 ∧
        ∀ c ∈ key.toList, c.isAlphanum = true) := by
  refine ⟨randomKey_some hc hsize hmax, fun big hb => randomKey_too_long maxLen intn hb, ?_, ?_,
    keyRunes_length, by decide, by decide, by decide, by decide, ?_⟩
  · intro neg hneg
    simp only [randomKey, if_pos (Or.inl hneg)]
  · exact fun i => hc i keyRunes.length (by rw [keyRunes_length]; decide)
  · obtain ⟨key, hk, hlen, hmem⟩ :=
      randomKey_some hc (show (0 : Int) ≤ 50 by decide) fifty_le_maxSliceLen
    refine ⟨key, hk, hlen, ?_⟩
    intro c hcm
    have hall : ∀ c ∈ keyRunes, c.isAlphanum = true := by decide
    exact hall c (hmem c hcm)

theorem testIntn_contract : IntnContract testIntn :=
  fun _ _ hn => Nat.mod_lt _ hn

theorem randomKey_key_shape_witness :
    (0 : Int) ≤ 50 ∧ (50 : Int) ≤ (maxSliceLen : Int) ∧ IntnContract testIntn ∧
      randomKey maxSliceLen testIntn 50 = some testKey ∧
      (∃ key, randomKey maxSliceLen testIntn 50 = some key ∧ key.length = (50 : Int).toNat ∧
        ∀ c ∈ key.toList, c ∈ keyRunes) ∧
      randomKey maxSliceLen testIntn (maxSliceLen + 1) = none ∧
      keyRunes.length = 62 :=
  have h := randomKey_key_shape maxSliceLen testIntn 50 (by decide) fifty_le_maxSliceLen
    testIntn_contract
  ⟨by decide, fifty_le_maxSliceLen, testIntn_contract, by decide, h.1,
    h.2.1 (maxSliceLen + 1) (by decide), h.2.2.2.2.1⟩

/-- C8 fails as stated.  The size `2^62` is a non-negative `int64`, the random
source obeys its contract, and `randomKey` returns no string at all:
`make([]rune, size)` panics because the length is out of range. -/
theorem randomKey_large_size_panics :
    (0 : Int) ≤ 4611686018427387904 ∧ (4611686018427387904 : Int) < 2 ^ 63 ∧
      IntnContract testIntn ∧
      randomKey maxSliceLen testIntn 4611686018427387904 = none ∧
      ¬ ∃ key, randomKey maxSliceLen testIntn 4611686018427387904 = some key ∧
        key.length = (4611686018427387904 : Int).toNat :=
  ⟨by decide, by decide, testIntn_contract, by decide, by
    intro h
    obtain ⟨key, hk, _⟩ := h
    have hnone : randomKey maxSliceLen testIntn 4611686018427387904 = none := by decide
    rw [hnone] at hk
    simp at hk⟩

/-! ## The handlers -/

theorem renderRequest_key (f : Faults) (now : Time) (s : Server) {k : String} (hk : k ≠ "") :
    (renderRequest f now s (some [k])).1.page =
        (match (retrieve f now s k).1 with
          | none => Page.notfound k
          | some image => Page.image image) ∧
      (renderRequest f now s (some [k])).2 = (retrieve f now s k).2 := by
  unfold renderRequest
  simp only [hk, if_false]
  generalize retrieve f now s k = r
  obtain ⟨o, s1⟩ := r
  cases o <;> exact ⟨rfl, rfl⟩

/-- C3 (cache priority).  When the cache read returns a record `r` for `id`
with `r.Expiration > now`, the lookup returns `r` whatever the datastore holds
and however it behaves; two runs that differ only in the datastore (contents
and failures) give the same result; the datastore is left unchanged and the
only tier call made is the cache read.  The page handler then renders the image
page for `r`. -/
theorem cache_priority (id : String) (now : Time) (r : RawImage) (s1 s2 : Server)
    (f1 f2 : Faults) (hg1 : f1.memGetErr = false) (hg2 : f2.memGetErr = false)
    (hc : tableGet id s1.memcache = some r) (hsame : s2.memcache = s1.memcache)
    (hl : r.Expiration > now) :
    (retrieve f1 now s1 id).1 = some r ∧
      (retrieve f2 now s2 id).1 = (retrieve f1 now s1 id).1 ∧
      (retrieve f1 now s1 id).2.datastore = s1.datastore ∧
      (retrieve f1 now s1 id).2.memcache = s1.memcache ∧
      (retrieve f1 now s1 id).2.calls = s1.calls ++ [Call.memGet id] ∧
      (id ≠ "" → (renderRequest f1 now s1 (some [id])).1.page = Page.image r) := by
  have hl1 : ¬ r.Expiration < now := not_lt.mpr (le_of_lt hl)
  have h1 := retrieve_live hg1 hc hl1
  have h2 := retrieve_live hg2 (hsame ▸ hc) hl1
  refine ⟨by rw [h1], by rw [h1, h2], by rw [h1]; rfl, by rw [h1]; rfl, by rw [h1]; rfl, ?_⟩
  intro hid
  rw [(renderRequest_key f1 now s1 hid).1, h1]

theorem cache_priority_witness :
    (retrieve noFaults 7 testServer testKey).1 = some testRecord ∧
      (retrieve { noFaults with dsQueryErr := true } 7 { testServer with datastore := [] }
          testKey).1 = (retrieve noFaults 7 testServer testKey).1 ∧
      (retrieve noFaults 7 testServer testKey).2.datastore = testServer.datastore ∧
      (retrieve noFaults 7 testServer testKey).2.memcache = testServer.memcache ∧
      (retrieve noFaults 7 testServer testKey).2.calls = testServer.calls ++ [Call.memGet testKey] ∧
      (testKey ≠ "" →
        (renderRequest noFaults 7 testServer (some [testKey])).1.page = Page.image testRecord) :=
  cache_priority testKey 7 testRecord testServer { testServer with datastore := [] } noFaults
    { noFaults with dsQueryErr := true } rfl rfl (by decide) rfl (by decide)

/-- C4 (fail-open on the read path).  When the cache lookup is a miss (the key
is absent or the cache call fails) and the datastore query fails, the lookup
returns not-found, the same outcome as for a key never stored in empty tiers,
and changes neither tier.  Whatever the tiers do, `getFromMemCache` and
`getFromDatastore` return only a record or nil and the expiration flag: a
failing call gives exactly the genuine-miss result `(nil, false)`, and a record
is never returned together with the flag. -/
theorem read_path_fail_open (id : String) (now : Time) (s : Server) (f : Faults)
    (hmiss : f.memGetErr = true ∨ tableGet id s.memcache = none)
    (hq : f.dsQueryErr = true) :
    (retrieve f now s id).1 = none ∧
      (retrieve f now s id).1 = (retrieve noFaults now emptyServer id).1 ∧
      (renderRequest f now s (some [id])).1.page =
        (renderRequest noFaults now emptyServer (some [id])).1.page ∧
      (retrieve f now s id).2.memcache = s.memcache ∧
      (retrieve f now s id).2.datastore = s.datastore ∧
      (∀ (g : Faults) (t : Time) (w : Server) (k : String), g.memGetErr = true →
        (getFromMemCache g t w k).1 = (none, false) ∧
          (getFromMemCache g t w k).1 = (getFromMemCache noFaults t emptyServer k).1) ∧
      (∀ (g : Faults) (t : Time) (w : Server) (k : String), g.dsQueryErr = true →
        (getFromDatastore g t w k).1 = (none, false) ∧
          (getFromDatastore g t w k).1 = (getFromDatastore noFaults t emptyServer k).1) ∧
      (∀ (g : Faults) (t : Time) (w : Server) (k : String),
        ((getFromMemCache g t w k).1.1 = none ∨ (getFromMemCache g t w k).1.2 = false) ∧
          ((getFromDatastore g t w k).1.1 = none ∨ (getFromDatastore g t w k).1.2 = false)) := by
  have h1 : retrieve f now s id = (none, logCall (logCall s (Call.memGet id)) (Call.dsQuery id)) := by
    rw [retrieve_miss now hmiss, getFromDatastore_err now _ id hq]
  have h0 : (retrieve noFaults now emptyServer id).1 = none := by
    rw [retrieve_miss now (Or.inr (rfl : tableGet id emptyServer.memcache = none))]; rfl
  refine ⟨by rw [h1], by rw [h1, h0], ?_, by rw [h1]; rfl, by rw [h1]; rfl, ?_, ?_, ?_⟩
  · by_cases hid : id = ""
    · subst hid; rfl
    · rw [(renderRequest_key f now s hid).1, (renderRequest_key noFaults now emptyServer hid).1,
        h1, h0]
  · intro g t w k hg
    rw [getFromMemCache_miss t (Or.inl hg),
      getFromMemCache_miss t (Or.inr (rfl : tableGet k emptyServer.memcache = none))]
    exact ⟨rfl, rfl⟩
  · intro g t w k hg
    rw [getFromDatastore_err t w k hg]
    exact ⟨rfl, rfl⟩
  · intro g t w k
    refine ⟨?_, getFromDatastore_flag g t w k⟩
    unfold getFromMemCache
    split
    · simp
    · simp
    · split <;> simp

theorem read_path_fail_open_witness :
    ({ noFaults with memGetErr := true, dsQueryErr := true } : Faults).memGetErr = true ∧
      (retrieve { noFaults with memGetErr := true, dsQueryErr := true } 7 testServer testKey).1 =
        none ∧
      (retrieve { noFaults with memGetErr := true, dsQueryErr := true } 7 testServer
          testKey).2.datastore = testServer.datastore :=
  have h := read_path_fail_open testKey 7 testServer
    { noFaults with memGetErr := true, dsQueryErr := true } (Or.inl rfl) rfl
  ⟨rfl, h.1, h.2.2.2.2.1⟩

theorem callsSince_self (s : Server) : callsSince s s = [] := by
  simp [callsSince]

theorem callsSince_append (s s1 : Server) (l : List Call) (h : s1.calls = s.calls ++ l) :
    callsSince s s1 = l := by
  simp [callsSince, h]

theorem postRequest_key_inv {Img : Type} {codec : Codec Img} {intn : Nat → Nat → Nat}
    {f : Faults} {now : Time} {s s1 : Server} {form : Option Upload} {k : String}
    (h : postRequest codec intn f now s form = (PostResponse.key k, s1)) :
    ∃ up rawImage, form = some up ∧ decodeUpload codec up = some rawImage ∧
      randomKey maxSliceLen intn 50 = some k ∧ f.dsPutErr = false ∧
      s1 = memcacheSet f
        (logCall
          { s with datastore := tablePut k (postedRecord codec rawImage k now) s.datastore }
          (Call.dsPut k))
        k (postedRecord codec rawImage k now) := by
  cases form with
  | none => simp [postRequest] at h
  | some up =>
    cases hd : decodeUpload codec up with
    | none => simp [postRequest, hd] at h
    | some rawImage =>
      cases hr : randomKey maxSliceLen intn 50 with
      | none => simp [postRequest, hd, hr] at h
      | some key =>
        cases hp : f.dsPutErr with
        | true => rw [postRequest_put_failed now s hd hr hp] at h; simp at h
        | false =>
          rw [postRequest_put_ok now s hd hr hp] at h
          simp only [Prod.mk.injEq, PostResponse.key.injEq] at h
          obtain ⟨hk, hs⟩ := h
          subst hk
          exact ⟨up, rawImage, rfl, hd, rfl, rfl, hs.symm⟩

/-- C6 (write-path atomicity on store failure).  If `datastore.Put` fails,
`postRequest` answers without a key (with `renderError`, the random source
obeying its contract), makes no cache write and leaves the cache (and the
datastore) unchanged.  A key is returned only if the put succeeded,
the record then being filed under that key; and the response is the same
whether or not the following cache set succeeds. -/
theorem postRequest_store_failure {Img : Type} (codec : Codec Img) (intn : Nat → Nat → Nat)
    (f : Faults) (now : Time) (s : Server) (form : Option Upload) :
    (f.dsPutErr = true →
        (∀ k, (postRequest codec intn f now s form).1 ≠ PostResponse.key k) ∧
          (IntnContract intn →
            (postRequest codec intn f now s form).1 = PostResponse.renderError) ∧
          (postRequest codec intn f now s form).2.memcache = s.memcache ∧
          (postRequest codec intn f now s form).2.datastore = s.datastore ∧
          ∀ k, Call.memSet k ∉ callsSince s (postRequest codec intn f now s form).2) ∧
      (∀ k, (postRequest codec intn f now s form).1 = PostResponse.key k →
        f.dsPutErr = false ∧
          callsSince s (postRequest codec intn f now s form).2 = [Call.dsPut k, Call.memSet k] ∧
          ∃ r, tableGet k (postRequest codec intn f now s form).2.datastore = some r ∧
            r.ID = k) ∧
      (∀ b : Bool, (postRequest codec intn { f with memSetErr := b } now s form).1 =
        (postRequest codec intn f now s form).1) := by
  refine ⟨?_, ?_, ?_⟩
  · intro hp
    cases form with
    | none => simp [postRequest, callsSince_self]
    | some up =>
      cases hd : decodeUpload codec up with
      | none => simp [postRequest, hd, callsSince_self]
      | some rawImage =>
        cases hr : randomKey maxSliceLen intn 50 with
        | none =>
          have hno : ¬ IntnContract intn := by
            intro hc
            obtain ⟨key, hkey, _⟩ := randomKey_some hc (show (0 : Int) ≤ 50 by decide) fifty_le_maxSliceLen
            rw [hr] at hkey
            simp at hkey
          simp [postRequest, hd, hr, callsSince_self, hno]
        | some key =>
          rw [postRequest_put_failed now s hd hr hp]
          refine ⟨by simp, fun _ => rfl, rfl, rfl, ?_⟩
          intro k
          rw [callsSince_append s _ [Call.dsPut key] rfl]
          simp
  · intro k hk
    have hpair : postRequest codec intn f now s form =
        (PostResponse.key k, (postRequest codec intn f now s form).2) := by
      rw [← hk]
    obtain ⟨up, rawImage, _, _, _, hp, hs⟩ := postRequest_key_inv hpair
    refine ⟨hp, ?_, postedRecord codec rawImage k now, ?_, rfl⟩
    · rw [hs]
      apply callsSince_append
      cases hm : f.memSetErr <;> simp [memcacheSet, hm]
    · rw [hs]
      cases hm : f.memSetErr <;> simp [memcacheSet, hm, tableGet_tablePut_self]
  · intro b
    cases form with
    | none => rfl
    | some up =>
      cases hd : decodeUpload codec up with
      | none => simp [postRequest, hd]
      | some rawImage =>
        cases hr : randomKey maxSliceLen intn 50 with
        | none => simp [postRequest, hd, hr]
        | some key =>
          have hsame : ∀ g : Faults, g.dsPutErr = f.dsPutErr →
              (postRequest codec intn g now s (some up)).1 =
                (postRequest codec intn f now s (some up)).1 := by
            intro g hg
            cases hp : f.dsPutErr with
            | true =>
              rw [postRequest_put_failed now s hd hr hp,
                postRequest_put_failed now s hd hr (hg.trans hp)]
            | false =>
              rw [postRequest_put_ok now s hd hr hp,
                postRequest_put_ok now s hd hr (hg.trans hp)]
          exact hsame _ rfl

theorem postRequest_store_failure_witness :
    (postRequest testCodec testIntn { noFaults with dsPutErr := true } 0 testServer
        (some testUpload)).1 = PostResponse.renderError ∧
      (postRequest testCodec testIntn { noFaults with dsPutErr := true } 0 testServer
        (some testUpload)).2.memcache = testServer.memcache ∧
      (∀ k, Call.memSet k ∉ callsSince testServer
        (postRequest testCodec testIntn { noFaults with dsPutErr := true } 0 testServer
          (some testUpload)).2) ∧
      ({ noFaults with memSetErr := true } : Faults).dsPutErr = false ∧
      (postRequest testCodec testIntn { noFaults with memSetErr := true } 0 emptyServer
        (some testUpload)).1 = PostResponse.key testKey :=
  ⟨by decide,
    ((postRequest_store_failure testCodec testIntn { noFaults with dsPutErr := true } 0
      testServer (some testUpload)).1 rfl).2.2.1,
    ((postRequest_store_failure testCodec testIntn { noFaults with dsPutErr := true } 0
      testServer (some testUpload)).1 rfl).2.2.2.2,
    ((postRequest_store_failure testCodec testIntn { noFaults with memSetErr := true } 0
      emptyServer (some testUpload)).2.1 testKey (by decide)).1,
    by decide⟩

/-- C7 (the encode error is ignored).  On an upload whose re-encoding fails
(here the empty image with `testCodec`), `postRequest` does not abort: it
answers with a key, files the bytes left in the buffer under that key in the
datastore and in the cache, and makes both tier writes. -/
theorem postRequest_ignores_encode_error :
    decodeUpload testCodec ⟨"cat.png", []⟩ = some [] ∧
      (testCodec.jpegEncode []).2 = true ∧
      (postRequest testCodec testIntn noFaults 0 emptyServer (some ⟨"cat.png", []⟩)).1 =
        PostResponse.key testKey ∧
      (postRequest testCodec testIntn noFaults 0 emptyServer (some ⟨"cat.png", []⟩)).2 =
        ⟨[(testKey, ⟨[], testKey, fiveMinutes⟩)], [(testKey, ⟨[], testKey, fiveMinutes⟩)],
          [Call.dsPut testKey, Call.memSet testKey]⟩ := by
  decide

/-! ## Round trip and expiration -/

theorem reachable_keyed {s : Server} (h : Reachable s) : KeyedByID s.datastore :=
  (wellFiled_of_reachable h).1

theorem getFromDatastore_served {f : Faults} {now : Time} {s : Server} {key : String}
    {r : RawImage} (h : (getFromDatastore f now s key).1.1 = some r) : ¬ r.Expiration < now := by
  unfold getFromDatastore at h
  split at h
  · simp at h
  · simp at h
  · simp at h
  · split at h
    · simp at h
    · simp only [Option.some.injEq] at h
      subst h
      assumption

theorem retrieve_served {f : Faults} {now : Time} {s : Server} {key : String} {r : RawImage}
    (h : (retrieve f now s key).1 = some r) : ¬ r.Expiration < now := by
  cases hg : f.memGetErr with
  | false =>
    cases hc : tableGet key s.memcache with
    | some r1 =>
      by_cases hl1 : r1.Expiration < now
      · rw [retrieve_expired hg hc hl1] at h; simp at h
      · rw [retrieve_live hg hc hl1] at h
        simp only [Option.some.injEq] at h
        rw [← h]
        exact hl1
    | none =>
      rw [retrieve_miss now (Or.inr hc)] at h
      exact getFromDatastore_served h
  | true =>
    rw [retrieve_miss now (Or.inl hg)] at h
    exact getFromDatastore_served h

/-- C1 (round trip while live).  From any reachable state, if `postRequest` at
time `t` answers with key `k`, then the datastore files under `k` the record
made of the encoded bytes, `k` and `t + 5 minutes`, and a lookup of `k` at any
time `t2` with `t ≤ t2 < t + 5 minutes` returns exactly that record (the page
handler renders the image page for it), both when the cache still holds the
entry written and the cache read works, and when the cache read misses (entry
lost, or cache call failing) while the datastore is as the upload left it and
its query works. -/
theorem round_trip_while_live {Img : Type} (codec : Codec Img) (intn : Nat → Nat → Nat)
    (fw : Faults) (t : Time) (s : Server) (form : Option Upload) (k : String) (s1 : Server)
    (fr : Faults) (t2 : Time) (s2 : Server)
    (hs : Reachable s)
    (hpost : postRequest codec intn fw t s form = (PostResponse.key k, s1))
    (ht : t ≤ t2 ∧ t2 < t + fiveMinutes)
    (htier : (fr.memGetErr = false ∧ fw.memSetErr = false ∧ s2.memcache = s1.memcache) ∨
      ((fr.memGetErr = true ∨ tableGet k s2.memcache = none) ∧ fr.dsQueryErr = false ∧
        s2.datastore = s1.datastore)) :
    ∃ up rawImage r, form = some up ∧ decodeUpload codec up = some rawImage ∧
      r = ⟨(codec.jpegEncode rawImage).1, k, t + fiveMinutes⟩ ∧
      tableGet k s1.datastore = some r ∧
      (retrieve fr t2 s2 k).1 = some r ∧
      (renderRequest fr t2 s2 (some [k])).1.page = Page.image r := by
  obtain ⟨up, rawImage, hform, hd, hr, hp, hs1⟩ := postRequest_key_inv hpost
  have hne : k ≠ "" := randomKey_ne_empty hr
  have hlive : ¬ (postedRecord codec rawImage k t).Expiration < t2 := by
    simp only [postedRecord]
    exact not_lt.mpr (le_of_lt ht.2)
  have hds : tableGet k s1.datastore = some (postedRecord codec rawImage k t) := by
    rw [hs1]
    cases hm : fw.memSetErr <;> simp [memcacheSet, hm, tableGet_tablePut_self]
  have hreach : Reachable s1 := by
    have := Reachable.post codec intn fw t form s hs
    rwa [hpost] at this
  have hret : (retrieve fr t2 s2 k).1 = some (postedRecord codec rawImage k t) := by
    rcases htier with ⟨hg, hm, hc⟩ | ⟨hmiss, hq, hd2⟩
    · have hmem : tableGet k s2.memcache = some (postedRecord codec rawImage k t) := by
        rw [hc, hs1]
        simp [memcacheSet, hm, tableGet_tablePut_self]
      rw [retrieve_live hg hmem hlive]
    · rw [retrieve_miss t2 hmiss]
      have hk2 : KeyedByID (logCall s2 (Call.memGet k)).datastore := by
        rw [logCall_datastore, hd2]; exact reachable_keyed hreach
      have hg2 : tableGet k (logCall s2 (Call.memGet k)).datastore =
          some (postedRecord codec rawImage k t) := by
        rw [logCall_datastore, hd2]; exact hds
      rw [getFromDatastore_live hq hk2 hg2 hlive]
  refine ⟨up, rawImage, postedRecord codec rawImage k t, hform, hd, rfl, hds, hret, ?_⟩
  rw [(renderRequest_key fr t2 s2 hne).1, hret]

theorem round_trip_while_live_witness :
    ∃ up rawImage r, some testUpload = some up ∧ decodeUpload testCodec up = some rawImage ∧
      r = ⟨(testCodec.jpegEncode rawImage).1, testKey, 0 + fiveMinutes⟩ ∧
      tableGet testKey testServer.datastore = some r ∧
      (retrieve noFaults 7 { testServer with memcache := [] } testKey).1 = some r ∧
      (renderRequest noFaults 7 { testServer with memcache := [] } (some [testKey])).1.page =
        Page.image r :=
  round_trip_while_live testCodec testIntn noFaults 0 emptyServer (some testUpload) testKey
    testServer noFaults 7 { testServer with memcache := [] } Reachable.init (by decide)
    (by decide) (Or.inr ⟨Or.inr rfl, rfl, rfl⟩)

/-- C2, as the code has it.  In a reachable state, a record whose expiration is
strictly before the read time is not served, whether the cache read returns it
or, after a cache miss, only the datastore holds it; and when the datastore
query and delete of the cleanup succeed, a direct datastore lookup of the id is
absent afterwards.  A record is served only if `now ≤ Expiration`; a record
expiring at exactly `now` is still served, from the cache and from the
datastore alike. -/
theorem expiration_strictly_before (s : Server) (id : String) (r : RawImage) (now : Time)
    (f : Faults) (hs : Reachable s) :
    (f.memGetErr = false → tableGet id s.memcache = some r → r.Expiration < now →
        (retrieve f now s id).1 = none ∧
          (f.dsQueryErr = false → f.dsDeleteErr = false →
            tableGet id (retrieve f now s id).2.datastore = none)) ∧
      ((f.memGetErr = true ∨ tableGet id s.memcache = none) →
        tableGet id s.datastore = some r → r.Expiration < now →
        (retrieve f now s id).1 = none ∧
          (f.dsQueryErr = false → f.dsDeleteErr = false →
            tableGet id (retrieve f now s id).2.datastore = none)) ∧
      ((retrieve f now s id).1 = some r → now ≤ r.Expiration) ∧
      (f.memGetErr = false → tableGet id s.memcache = some r → r.Expiration = now →
        (retrieve f now s id).1 = some r) ∧
      ((f.memGetErr = true ∨ tableGet id s.memcache = none) → f.dsQueryErr = false →
        tableGet id s.datastore = some r → r.Expiration = now →
        (retrieve f now s id).1 = some r) := by
  have hk : KeyedByID s.datastore := reachable_keyed hs
  refine ⟨?_, ?_, ?_, ?_, ?_⟩
  · intro hg hc hl
    rw [retrieve_expired hg hc hl, getFromMemCache_expired hg hc hl]
    refine ⟨rfl, ?_⟩
    intro hq hd
    have hsh := shrinks_memcacheDelete f (logCall s (Call.memGet id)) id
    obtain ⟨_, ⟨q, hq2⟩⟩ := hsh
    have hk2 : KeyedByID (removeFromMemCache f (logCall s (Call.memGet id)) id).datastore := by
      unfold removeFromMemCache
      rw [hq2]; exact keyedByID_filter q hk
    cases hget : tableGet id (removeFromMemCache f (logCall s (Call.memGet id)) id).datastore with
    | none =>
      rw [removeFromDatastore_absent hq hk2 hget]
      exact hget
    | some r2 =>
      rw [removeFromDatastore_present hq hk2 hget]
      simp only [datastoreDelete, hd, logCall_datastore]
      exact tableGet_tableDelete_self id _
  · intro hmiss hd hl
    rw [retrieve_miss now hmiss]
    cases hq : f.dsQueryErr with
    | true =>
      rw [getFromDatastore_err now _ id hq]
      exact ⟨rfl, fun h => by simp at h⟩
    | false =>
      rw [getFromDatastore_expired hq (s := logCall s (Call.memGet id)) hk hd hl]
      refine ⟨rfl, ?_⟩
      intro _ hdel
      simp only [datastoreDelete, hdel, logCall_datastore]
      exact tableGet_tableDelete_self id _
  · intro hfound
    exact not_lt.mp (retrieve_served hfound)
  · intro hg hc he
    rw [retrieve_live hg hc (by rw [he]; exact lt_irrefl now)]
  · intro hmiss hq hd he
    rw [retrieve_miss now hmiss,
      getFromDatastore_live hq (s := logCall s (Call.memGet id)) hk hd
        (by rw [he]; exact lt_irrefl now)]

theorem testServer_reachable : Reachable testServer :=
  Reachable.post testCodec testIntn noFaults 0 (some testUpload) emptyServer Reachable.init

theorem expiration_strictly_before_witness :
    Reachable testServer ∧ tableGet testKey testServer.memcache = some testRecord ∧
      testRecord.Expiration < fiveMinutes + 1 ∧
      (retrieve noFaults (fiveMinutes + 1) testServer testKey).1 = none ∧
      tableGet testKey (retrieve noFaults (fiveMinutes + 1) testServer testKey).2.datastore =
        none :=
  have h := expiration_strictly_before testServer testKey testRecord (fiveMinutes + 1) noFaults
    testServer_reachable
  ⟨testServer_reachable, by decide, by decide, (h.1 rfl (by decide) (by decide)).1,
    (h.1 rfl (by decide) (by decide)).2 rfl rfl⟩

/-- C2 fails as stated.  The record of `testServer` expires at `fiveMinutes`;
read at exactly that instant it is served, from the cache and (cache emptied)
from the datastore.  And read after expiry while `datastore.Delete` fails, the
answer is not-found but the datastore still files the record under its id. -/
theorem expiration_boundary_served :
    testRecord.Expiration = fiveMinutes ∧
      (retrieve noFaults fiveMinutes testServer testKey).1 = some testRecord ∧
      (retrieve noFaults fiveMinutes { testServer with memcache := [] } testKey).1 =
        some testRecord ∧
      (retrieve { noFaults with dsDeleteErr := true } (fiveMinutes + 1) testServer testKey).1 =
        none ∧
      tableGet testKey
        (retrieve { noFaults with dsDeleteErr := true } (fiveMinutes + 1) testServer
          testKey).2.datastore = some testRecord := by
  decide

/-! ## Cleanup -/

theorem keyedByID_tableDelete (k : String) {t : Table} (h : KeyedByID t) :
    KeyedByID (tableDelete k t) :=
  keyedByID_filter _ h

theorem memcacheDelete_tiers (f : Faults) (s : Server) (k : String) :
    ((memcacheDelete f s k).memcache = s.memcache ∨
        (memcacheDelete f s k).memcache = tableDelete k s.memcache) ∧
      (memcacheDelete f s k).datastore = s.datastore := by
  unfold memcacheDelete
  split
  · exact ⟨Or.inl rfl, rfl⟩
  · exact ⟨Or.inr rfl, rfl⟩

theorem datastoreDelete_tiers (f : Faults) (s : Server) (k : String) :
    (datastoreDelete f s k).memcache = s.memcache ∧
      ((datastoreDelete f s k).datastore = s.datastore ∨
        (datastoreDelete f s k).datastore = tableDelete k s.datastore) := by
  unfold datastoreDelete
  split
  · exact ⟨rfl, Or.inl rfl⟩
  · exact ⟨rfl, Or.inr rfl⟩

theorem removeFromDatastore_tiers (f : Faults) {s : Server} (k : String)
    (hk : KeyedByID s.datastore) :
    (removeFromDatastore f s k none).memcache = s.memcache ∧
      ((removeFromDatastore f s k none).datastore = s.datastore ∨
        (removeFromDatastore f s k none).datastore = tableDelete k s.datastore) := by
  cases hq : f.dsQueryErr with
  | true => rw [removeFromDatastore_err s k hq]; exact ⟨rfl, Or.inl rfl⟩
  | false =>
    cases hg : tableGet k s.datastore with
    | none => rw [removeFromDatastore_absent hq hk hg]; exact ⟨rfl, Or.inl rfl⟩
    | some r =>
      rw [removeFromDatastore_present hq hk hg]
      exact datastoreDelete_tiers f (logCall s (Call.dsQuery k)) k

theorem getFromDatastore_tiers (f : Faults) (now : Time) {s : Server} (k : String)
    (hk : KeyedByID s.datastore) :
    (getFromDatastore f now s k).2.memcache = s.memcache ∧
      ((getFromDatastore f now s k).2.datastore = s.datastore ∨
        (getFromDatastore f now s k).2.datastore = tableDelete k s.datastore) := by
  cases hq : f.dsQueryErr with
  | true => rw [getFromDatastore_err now s k hq]; exact ⟨rfl, Or.inl rfl⟩
  | false =>
    cases hg : tableGet k s.datastore with
    | none => rw [getFromDatastore_absent now hq hk hg]; exact ⟨rfl, Or.inl rfl⟩
    | some r =>
      by_cases hl : r.Expiration < now
      · rw [getFromDatastore_expired hq hk hg hl]
        exact datastoreDelete_tiers f (logCall s (Call.dsQuery k)) k
      · rw [getFromDatastore_live hq hk hg hl]; exact ⟨rfl, Or.inl rfl⟩

theorem retrieve_tiers (f : Faults) (now : Time) {s : Server} (k : String)
    (hk : KeyedByID s.datastore) :
    ((retrieve f now s k).2.memcache = s.memcache ∨
        (retrieve f now s k).2.memcache = tableDelete k s.memcache) ∧
      ((retrieve f now s k).2.datastore = s.datastore ∨
        (retrieve f now s k).2.datastore = tableDelete k s.datastore) := by
  have hmiss : ∀ h : f.memGetErr = true ∨ tableGet k s.memcache = none,
      ((retrieve f now s k).2.memcache = s.memcache ∨
        (retrieve f now s k).2.memcache = tableDelete k s.memcache) ∧
      ((retrieve f now s k).2.datastore = s.datastore ∨
        (retrieve f now s k).2.datastore = tableDelete k s.datastore) := by
    intro h
    rw [retrieve_miss now h]
    have := getFromDatastore_tiers f now (s := logCall s (Call.memGet k)) k hk
    exact ⟨Or.inl this.1, this.2⟩
  cases hg : f.memGetErr with
  | true => exact hmiss (Or.inl hg)
  | false =>
    cases hc : tableGet k s.memcache with
    | none => exact hmiss (Or.inr hc)
    | some r =>
      by_cases hl : r.Expiration < now
      · rw [retrieve_expired hg hc hl, getFromMemCache_expired hg hc hl]
        have h1 := memcacheDelete_tiers f (logCall s (Call.memGet k)) k
        have hk1 : KeyedByID (removeFromMemCache f (logCall s (Call.memGet k)) k).datastore := by
          unfold removeFromMemCache; rw [h1.2]; exact hk
        have h2 := removeFromDatastore_tiers f k hk1
        unfold removeFromMemCache at h2 hk1 ⊢
        refine ⟨?_, ?_⟩
        · show (removeFromDatastore f _ k none).memcache = _ ∨ _
          rw [h2.1]; exact h1.1
        · show (removeFromDatastore f _ k none).datastore = _ ∨ _
          rw [h1.2] at h2
          exact h2.2
      · rw [retrieve_live hg hc hl]; exact ⟨Or.inl rfl, Or.inl rfl⟩

theorem dead_retrieve {k : String} {t0 : Time} {s : Server} (f : Faults) {now : Time}
    (hd : Dead k t0 s) (ht : t0 ≤ now) :
    (retrieve f now s k).1 = none ∧ Dead k t0 (retrieve f now s k).2 := by
  obtain ⟨hm, hds, hk⟩ := hd
  constructor
  · cases hres : (retrieve f now s k).1 with
    | none => rfl
    | some r =>
      exfalso
      have hlive := retrieve_served hres
      have hmiss : ∀ h : f.memGetErr = true ∨ tableGet k s.memcache = none, False := by
        intro h
        rw [retrieve_miss now h] at hres
        cases hq : f.dsQueryErr with
        | true => rw [getFromDatastore_err now _ k hq] at hres; simp at hres
        | false =>
          cases hg : tableGet k s.datastore with
          | none =>
            rw [getFromDatastore_absent now hq (s := logCall s (Call.memGet k)) hk hg] at hres
            simp at hres
          | some r2 =>
            have hl : r2.Expiration < now := lt_of_lt_of_le (hds r2 hg) ht
            rw [getFromDatastore_expired hq (s := logCall s (Call.memGet k)) hk hg hl] at hres
            simp at hres
      cases hg : f.memGetErr with
      | true => exact hmiss (Or.inl hg)
      | false =>
        cases hc : tableGet k s.memcache with
        | none => exact hmiss (Or.inr hc)
        | some r1 =>
          have hl : r1.Expiration < now := lt_of_lt_of_le (hm r1 hc) ht
          rw [retrieve_expired hg hc hl] at hres
          simp at hres
  · obtain ⟨h1, h2⟩ := retrieve_tiers f now k hk
    refine ⟨?_, ?_, ?_⟩
    · intro r hr
      rcases h1 with h1 | h1
      · rw [h1] at hr; exact hm r hr
      · rw [h1, tableGet_tableDelete_self] at hr; simp at hr
    · intro r hr
      rcases h2 with h2 | h2
      · rw [h2] at hr; exact hds r hr
      · rw [h2, tableGet_tableDelete_self] at hr; simp at hr
    · rcases h2 with h2 | h2
      · rw [h2]; exact hk
      · rw [h2]; exact keyedByID_tableDelete k hk

theorem gone_retrieve {k : String} {s : Server} (f : Faults) (now : Time) (hg : Gone k s) :
    (retrieve f now s k).1 = none ∧ (retrieve f now s k).2.memcache = s.memcache ∧
      (retrieve f now s k).2.datastore = s.datastore := by
  obtain ⟨hm, hds, hk⟩ := hg
  rw [retrieve_miss now (Or.inr hm)]
  cases hq : f.dsQueryErr with
  | true => rw [getFromDatastore_err now _ k hq]; exact ⟨rfl, rfl, rfl⟩
  | false =>
    rw [getFromDatastore_absent now hq (s := logCall s (Call.memGet k)) hk hds]
    exact ⟨rfl, rfl, rfl⟩

theorem gone_retrieveAgain (k : String) (later : List (Faults × Time)) :
    ∀ s, Gone k s → (retrieveAgain k later s).2.memcache = s.memcache ∧
      (retrieveAgain k later s).2.datastore = s.datastore := by
  induction later with
  | nil => intro s _; exact ⟨rfl, rfl⟩
  | cons x rest ih =>
    intro s hg
    obtain ⟨f, now⟩ := x
    obtain ⟨_, h1, h2⟩ := gone_retrieve f now hg
    have hg2 : Gone k (retrieve f now s k).2 := by
      unfold Gone
      rw [h1, h2]
      exact hg
    have := ih _ hg2
    simp only [retrieveAgain]
    rw [this.1, this.2, h1, h2]
    exact ⟨rfl, rfl⟩

theorem dead_retrieveAgain (k : String) (t0 : Time) (later : List (Faults × Time))
    (hl : ∀ x ∈ later, t0 ≤ x.2) :
    ∀ s, Dead k t0 s → (retrieveAgain k later s).1 = List.replicate later.length none := by
  induction later with
  | nil => intro s _; rfl
  | cons x rest ih =>
    intro s hd
    obtain ⟨f, now⟩ := x
    have ht : t0 ≤ now := hl (f, now) (List.mem_cons_self _ _)
    obtain ⟨h1, h2⟩ := dead_retrieve f hd ht
    have := ih (fun y hy => hl y (List.mem_cons_of_mem _ hy)) _ h2
    simp only [retrieveAgain, List.length_cons, List.replicate_succ]
    rw [this, h1]

theorem gone_of_dead_cleanup {k : String} {t0 : Time} {s : Server} {f : Faults} {now : Time}
    (hd : Dead k t0 s) (ht : t0 ≤ now)
    (hread : f.memGetErr = false ∨ tableGet k s.memcache = none)
    (hmd : f.memDeleteErr = false) (hq : f.dsQueryErr = false) (hdd : f.dsDeleteErr = false) :
    Gone k (retrieve f now s k).2 := by
  obtain ⟨hm, hds, hk⟩ := hd
  have hmiss : tableGet k s.memcache = none → Gone k (retrieve f now s k).2 := by
    intro hc
    rw [retrieve_miss now (Or.inr hc)]
    cases hg : tableGet k s.datastore with
    | none =>
      rw [getFromDatastore_absent now hq (s := logCall s (Call.memGet k)) hk hg]
      exact ⟨hc, hg, hk⟩
    | some r =>
      have hl : r.Expiration < now := lt_of_lt_of_le (hds r hg) ht
      rw [getFromDatastore_expired hq (s := logCall s (Call.memGet k)) hk hg hl]
      unfold Gone
      simp only [datastoreDelete, hdd, logCall_memcache, logCall_datastore, Bool.false_eq_true,
        if_false]
      exact ⟨hc, tableGet_tableDelete_self k _, keyedByID_tableDelete k hk⟩
  cases hc : tableGet k s.memcache with
  | none => exact hmiss hc
  | some r =>
    have hg : f.memGetErr = false := by
      rcases hread with h | h
      · exact h
      · rw [hc] at h; simp at h
    have hl : r.Expiration < now := lt_of_lt_of_le (hm r hc) ht
    rw [retrieve_expired hg hc hl, getFromMemCache_expired hg hc hl]
    have hmc : (removeFromMemCache f (logCall s (Call.memGet k)) k) =
        logCall { logCall s (Call.memGet k) with memcache := tableDelete k s.memcache }
          (Call.memDelete k) := by
      simp [removeFromMemCache, memcacheDelete, hmd]
    rw [hmc]
    cases hgd : tableGet k s.datastore with
    | none =>
      rw [removeFromDatastore_absent hq (by exact hk) (by exact hgd)]
      exact ⟨tableGet_tableDelete_self k _, hgd, hk⟩
    | some r2 =>
      rw [removeFromDatastore_present hq (by exact hk) (by exact hgd)]
      unfold Gone
      simp only [datastoreDelete, hdd, logCall_memcache, logCall_datastore, Bool.false_eq_true,
        if_false]
      exact ⟨tableGet_tableDelete_self k _, tableGet_tableDelete_self k _,
        keyedByID_tableDelete k hk⟩

/-- C5, as the code has it.  From a reachable state let `postRequest` at time
`t` answer with key `k`, and let the datastore be as the upload left it while
the cache holds under `k` either nothing or the record stored.  Then a lookup
of `k` at any `t1 > t + 5 minutes` returns not-found, and so does every later
lookup at times `≥ t1` with no upload in between, whatever calls fail.  If in
the first lookup the cache read does not fail while the cache holds the entry,
and the cache delete, the datastore query and the datastore delete succeed,
then the later lookups leave both tiers exactly as the first one left them. -/
theorem no_resurrection {Img : Type} (codec : Codec Img) (intn : Nat → Nat → Nat)
    (fw : Faults) (t : Time) (s : Server) (form : Option Upload) (k : String) (s1 s2 : Server)
    (f1 : Faults) (t1 : Time) (later : List (Faults × Time))
    (hs : Reachable s)
    (hpost : postRequest codec intn fw t s form = (PostResponse.key k, s1))
    (hds : s2.datastore = s1.datastore)
    (hcache : tableGet k s2.memcache = none ∨ tableGet k s2.memcache = tableGet k s1.datastore)
    (ht1 : t + fiveMinutes < t1) (hlater : ∀ x ∈ later, t1 ≤ x.2) :
    (retrieve f1 t1 s2 k).1 = none ∧
      (retrieveAgain k later (retrieve f1 t1 s2 k).2).1 = List.replicate later.length none ∧
      ((f1.memGetErr = false ∨ tableGet k s2.memcache = none) → f1.memDeleteErr = false →
        f1.dsQueryErr = false → f1.dsDeleteErr = false →
        (retrieveAgain k later (retrieve f1 t1 s2 k).2).2.memcache =
            (retrieve f1 t1 s2 k).2.memcache ∧
          (retrieveAgain k later (retrieve f1 t1 s2 k).2).2.datastore =
            (retrieve f1 t1 s2 k).2.datastore) := by
  obtain ⟨up, rawImage, hform, hd, hr, hp, hs1⟩ := postRequest_key_inv hpost
  have hget : tableGet k s1.datastore = some (postedRecord codec rawImage k t) := by
    rw [hs1]
    cases hm : fw.memSetErr <;> simp [memcacheSet, hm, tableGet_tablePut_self]
  have hreach : Reachable s1 := by
    have := Reachable.post codec intn fw t form s hs
    rwa [hpost] at this
  have hexp : (postedRecord codec rawImage k t).Expiration < t1 := ht1
  have hdead : Dead k t1 s2 := by
    refine ⟨?_, ?_, ?_⟩
    · intro r hr2
      rcases hcache with hc | hc
      · rw [hc] at hr2; simp at hr2
      · rw [hc, hget] at hr2
        simp only [Option.some.injEq] at hr2
        rw [← hr2]; exact hexp
    · intro r hr2
      rw [hds, hget] at hr2
      simp only [Option.some.injEq] at hr2
      rw [← hr2]; exact hexp
    · rw [hds]; exact reachable_keyed hreach
  obtain ⟨h1, h2⟩ := dead_retrieve f1 hdead (le_refl t1)
  refine ⟨h1, dead_retrieveAgain k t1 later hlater _ h2, ?_⟩
  intro hread hmd hq hdd
  exact gone_retrieveAgain k later _ (gone_of_dead_cleanup hdead (le_refl t1) hread hmd hq hdd)

theorem no_resurrection_witness :
    (retrieve noFaults (fiveMinutes + 1) testServer testKey).1 = none ∧
      (retrieveAgain testKey [(noFaults, fiveMinutes + 2), (noFaults, fiveMinutes + 9)]
        (retrieve noFaults (fiveMinutes + 1) testServer testKey).2).1 =
          List.replicate 2 none ∧
      (retrieveAgain testKey [(noFaults, fiveMinutes + 2), (noFaults, fiveMinutes + 9)]
        (retrieve noFaults (fiveMinutes + 1) testServer testKey).2).2.memcache =
          (retrieve noFaults (fiveMinutes + 1) testServer testKey).2.memcache ∧
      (retrieveAgain testKey [(noFaults, fiveMinutes + 2), (noFaults, fiveMinutes + 9)]
        (retrieve noFaults (fiveMinutes + 1) testServer testKey).2).2.datastore =
          (retrieve noFaults (fiveMinutes + 1) testServer testKey).2.datastore :=
  have h := no_resurrection testCodec testIntn noFaults 0 emptyServer (some testUpload) testKey
    testServer testServer noFaults (fiveMinutes + 1)
    [(noFaults, fiveMinutes + 2), (noFaults, fiveMinutes + 9)] Reachable.init (by decide) rfl
    (Or.inr (by decide)) (by decide) (by decide)
  ⟨h.1, h.2.1, (h.2.2 (Or.inl rfl) rfl rfl rfl).1, (h.2.2 (Or.inl rfl) rfl rfl rfl).2⟩

/-- C5 fails as stated.  The record of `testServer` has expired; the first
lookup suffers a failing cache read (every delete succeeds): it answers
not-found after deleting the datastore entity, and leaves the cache entry in
place.  The second lookup, with nothing failing, also answers not-found but
deletes that cache entry: it does not leave the cache as the first one left
it. -/
theorem later_retrieval_changes_cache :
    (retrieve { noFaults with memGetErr := true } (fiveMinutes + 1) testServer testKey).1 = none ∧
      (retrieve { noFaults with memGetErr := true } (fiveMinutes + 1) testServer testKey).2 =
        ⟨[(testKey, testRecord)], [],
          testServer.calls ++ [Call.memGet testKey, Call.dsQuery testKey, Call.dsDelete testKey]⟩ ∧
      (retrieve noFaults (fiveMinutes + 2)
        (retrieve { noFaults with memGetErr := true } (fiveMinutes + 1) testServer testKey).2
        testKey).1 = none ∧
      (retrieve noFaults (fiveMinutes + 2)
        (retrieve { noFaults with memGetErr := true } (fiveMinutes + 1) testServer testKey).2
        testKey).2.memcache = [] ∧
      (retrieve noFaults (fiveMinutes + 2)
        (retrieve { noFaults with memGetErr := true } (fiveMinutes + 1) testServer testKey).2
        testKey).2.memcache ≠
        (retrieve { noFaults with memGetErr := true } (fiveMinutes + 1) testServer
          testKey).2.memcache := by
  decide

theorem no_record_of_absent {id : String} {t : Table} (hk : KeyedByID t)
    (h : tableGet id t = none) : ∀ e ∈ t, e.2.ID ≠ id := by
  intro e he hid
  exact (tableGet_eq_none_iff id t).mp h e he ((hk e he).trans hid)

/-- C9, as the code has it.  In a reachable state, let `r` be a record that has
expired.  If the cache read returns `r` for `id`, the lookup answers not-found
and ends with the cleanup, never running `getFromDatastore`; when the cache
delete, the datastore query and the datastore delete succeed, neither tier
holds a record with that id afterwards.  If the cache read misses and the
datastore query finds `r` under `id`, the lookup answers not-found and leaves
the cache untouched; when the datastore delete succeeds the datastore holds no
record with that id afterwards, and neither does the cache provided the miss was
a genuine absence. -/
theorem cleanup_on_read (s : Server) (id : String) (r : RawImage) (now : Time) (f : Faults)
    (hs : Reachable s) (hl : r.Expiration < now) :
    (f.memGetErr = false → tableGet id s.memcache = some r →
        retrieve f now s id =
            (none,
              removeFromDatastore f (removeFromMemCache f (logCall s (Call.memGet id)) id) id
                none) ∧
          (f.memDeleteErr = false → f.dsQueryErr = false → f.dsDeleteErr = false →
            (∀ e ∈ (retrieve f now s id).2.memcache, e.2.ID ≠ id) ∧
              ∀ e ∈ (retrieve f now s id).2.datastore, e.2.ID ≠ id)) ∧
      ((f.memGetErr = true ∨ tableGet id s.memcache = none) → f.dsQueryErr = false →
        tableGet id s.datastore = some r →
        (retrieve f now s id).1 = none ∧
          (retrieve f now s id).2.memcache = s.memcache ∧
          (f.dsDeleteErr = false →
            (∀ e ∈ (retrieve f now s id).2.datastore, e.2.ID ≠ id) ∧
              (tableGet id s.memcache = none →
                ∀ e ∈ (retrieve f now s id).2.memcache, e.2.ID ≠ id))) := by
  have hw := wellFiled_of_reachable hs
  have hw2 : WellFiled (retrieve f now s id).2 := wellFiled_shrinks hw (shrinks_retrieve f now s id)
  have hk := hw.1
  constructor
  · intro hg hc
    have heq := retrieve_expired hg hc hl
    rw [getFromMemCache_expired hg hc hl] at heq
    refine ⟨heq, ?_⟩
    intro hmd hq hdd
    have hmc : (removeFromMemCache f (logCall s (Call.memGet id)) id) =
        logCall { logCall s (Call.memGet id) with memcache := tableDelete id s.memcache }
          (Call.memDelete id) := by
      simp [removeFromMemCache, memcacheDelete, hmd]
    have hgone : tableGet id (retrieve f now s id).2.memcache = none ∧
        tableGet id (retrieve f now s id).2.datastore = none := by
      rw [heq, hmc]
      cases hgd : tableGet id s.datastore with
      | none =>
        rw [removeFromDatastore_absent hq (by exact hk) (by exact hgd)]
        exact ⟨tableGet_tableDelete_self id _, hgd⟩
      | some r2 =>
        rw [removeFromDatastore_present hq (by exact hk) (by exact hgd)]
        simp only [datastoreDelete, hdd, logCall_memcache, logCall_datastore, Bool.false_eq_true,
          if_false]
        exact ⟨tableGet_tableDelete_self id _, tableGet_tableDelete_self id _⟩
    exact ⟨no_record_of_absent hw2.2.2 hgone.1, no_record_of_absent hw2.1 hgone.2⟩
  · intro hmiss hq hd
    have heq : retrieve f now s id =
        (none, datastoreDelete f (logCall (logCall s (Call.memGet id)) (Call.dsQuery id)) id) := by
      rw [retrieve_miss now hmiss,
        getFromDatastore_expired hq (s := logCall s (Call.memGet id)) hk hd hl]
    refine ⟨by rw [heq], ?_, ?_⟩
    · rw [heq]
      exact (datastoreDelete_tiers f _ id).1
    · intro hdd
      have hgone : tableGet id (retrieve f now s id).2.datastore = none := by
        rw [heq]
        simp only [datastoreDelete, hdd, logCall_datastore, Bool.false_eq_true, if_false]
        exact tableGet_tableDelete_self id _
      refine ⟨no_record_of_absent hw2.1 hgone, ?_⟩
      intro hc
      have hm : (retrieve f now s id).2.memcache = s.memcache := by
        rw [heq]
        exact (datastoreDelete_tiers f _ id).1
      rw [hm]
      exact no_record_of_absent hw.2.2 hc

theorem cleanup_on_read_witness :
    Reachable testServer ∧ testRecord.Expiration < fiveMinutes + 1 ∧
      (retrieve noFaults (fiveMinutes + 1) testServer testKey).1 = none ∧
      (∀ e ∈ (retrieve noFaults (fiveMinutes + 1) testServer testKey).2.memcache,
        e.2.ID ≠ testKey) ∧
      (∀ e ∈ (retrieve noFaults (fiveMinutes + 1) testServer testKey).2.datastore,
        e.2.ID ≠ testKey) ∧
      (retrieve noFaults (fiveMinutes + 1) { testServer with memcache := [] } testKey).1 = none :=
  have h := cleanup_on_read testServer testKey testRecord (fiveMinutes + 1) noFaults
    testServer_reachable (by decide)
  have h2 := cleanup_on_read { testServer with memcache := [] } testKey testRecord
    (fiveMinutes + 1) noFaults (Reachable.evict (fun _ => false) testServer testServer_reachable)
    (by decide)
  ⟨testServer_reachable, by decide, by rw [(h.1 rfl (by decide)).1],
    ((h.1 rfl (by decide)).2 rfl rfl rfl).1, ((h.1 rfl (by decide)).2 rfl rfl rfl).2,
    (h2.2 (Or.inr rfl) rfl (by decide)).1⟩

/-- C9 fails as stated.  In the reachable state `testServer` the record has
expired and the cache read fails, so the lookup goes to the datastore, detects
the expired record there and answers not-found; the cleanup's query and delete
succeed and empty the datastore, yet the cache still holds the record under
that id. -/
theorem cleanup_leaves_cache_after_failed_read :
    Reachable testServer ∧
      (retrieve { noFaults with memGetErr := true } (fiveMinutes + 1) testServer testKey).1 = none ∧
      callsSince testServer
        (retrieve { noFaults with memGetErr := true } (fiveMinutes + 1) testServer testKey).2 =
          [Call.memGet testKey, Call.dsQuery testKey, Call.dsDelete testKey] ∧
      (retrieve { noFaults with memGetErr := true } (fiveMinutes + 1) testServer
        testKey).2.datastore = [] ∧
      (testKey, testRecord) ∈
        (retrieve { noFaults with memGetErr := true } (fiveMinutes + 1) testServer
          testKey).2.memcache ∧
      testRecord.ID = testKey :=
  ⟨testServer_reachable, by decide, by decide, by decide, by decide, by decide⟩

/-! ## Identifier uniqueness -/

/-- C10 (identifier uniqueness in the datastore).  In every reachable state,
every datastore entity is filed under the key named by its `ID` and no key is
used twice, so at most one entity has a given id; the first match of the query
`ID = id` (key and entity) is exactly what a direct lookup by storage key `id`
gives, which is what `getFromDatastore` and `removeFromDatastore` use; and
deleting the key of that first match leaves no entity with that id. -/
theorem datastore_filed_by_id (s : Server) (id : String) (hs : Reachable s) :
    KeyedByID s.datastore ∧ KeysNodup s.datastore ∧
      (tableQuery id s.datastore).length ≤ 1 ∧
      ((tableQuery id s.datastore).map Prod.snd).head? = tableGet id s.datastore ∧
      ((tableQuery id s.datastore).map Prod.fst).head? =
        (tableGet id s.datastore).map (fun _ => id) ∧
      (∀ (f : Faults) (now : Time), f.dsQueryErr = false →
        (getFromDatastore f now s id).1 =
          (match tableGet id s.datastore with
            | none => (none, false)
            | some r => if r.Expiration < now then (none, true) else (some r, false))) ∧
      (∀ f : Faults, f.dsQueryErr = false →
        removeFromDatastore f s id none =
          (match tableGet id s.datastore with
            | none => logCall s (Call.dsQuery id)
            | some _ => datastoreDelete f (logCall s (Call.dsQuery id)) id)) ∧
      (∀ k0, ((tableQuery id s.datastore).map Prod.fst).head? = some k0 →
        ∀ e ∈ tableDelete k0 s.datastore, e.2.ID ≠ id) := by
  have hw := wellFiled_of_reachable hs
  have hk := hw.1
  have hq : ((tableQuery id s.datastore).map Prod.snd).head? = tableGet id s.datastore ∧
      ((tableQuery id s.datastore).map Prod.fst).head? =
        (tableGet id s.datastore).map (fun _ => id) := by
    cases hg : tableGet id s.datastore with
    | none => rw [tableQuery_eq_nil hk hg]; exact ⟨rfl, rfl⟩
    | some r =>
      obtain ⟨rest, hr⟩ := tableQuery_eq_cons hk hg
      rw [hr]; exact ⟨rfl, rfl⟩
  refine ⟨hk, hw.2.1, tableQuery_length_le_one hk hw.2.1, hq.1, hq.2, ?_, ?_, ?_⟩
  · intro f now hf
    cases hg : tableGet id s.datastore with
    | none => rw [getFromDatastore_absent now hf hk hg]
    | some r =>
      by_cases hl : r.Expiration < now
      · rw [getFromDatastore_expired hf hk hg hl]; simp [hl]
      · rw [getFromDatastore_live hf hk hg hl]; simp [hl]
  · intro f hf
    cases hg : tableGet id s.datastore with
    | none => rw [removeFromDatastore_absent hf hk hg]
    | some r => rw [removeFromDatastore_present hf hk hg]
  · intro k0 hk0
    rw [hq.2] at hk0
    cases hg : tableGet id s.datastore with
    | none => rw [hg] at hk0; simp at hk0
    | some r =>
      rw [hg] at hk0
      simp only [Option.map_some', Option.some.injEq] at hk0
      subst hk0
      exact no_record_of_absent (keyedByID_tableDelete id hk) (tableGet_tableDelete_self id _)

theorem testServer2_reachable : Reachable testServer2 :=
  Reachable.post testCodec testIntn noFaults 9 (some ⟨"dog.jpg", [4, 5]⟩) testServer
    testServer_reachable

theorem datastore_filed_by_id_witness :
    Reachable testServer2 ∧
      testServer2.datastore = [(testKey, ⟨[4, 5], testKey, 9 + fiveMinutes⟩)] ∧
      KeyedByID testServer2.datastore ∧
      (tableQuery testKey testServer2.datastore).length ≤ 1 ∧
      ((tableQuery testKey testServer2.datastore).map Prod.snd).head? =
        tableGet testKey testServer2.datastore ∧
      (∀ e ∈ tableDelete testKey testServer2.datastore, e.2.ID ≠ testKey) :=
  have h := datastore_filed_by_id testServer2 testKey testServer2_reachable
  ⟨testServer2_reachable, by decide, h.1, h.2.2.1, h.2.2.2.1,
    h.2.2.2.2.2.2.2 testKey (by decide)⟩

end LookQuick
